import Mathlib

/-!
Verification of the core of the EAF repository (Neri-Schneider,
"Euclidean Affine Functions and their Application to Calendar Algorithms").

The development shallowly embeds:

* `eaf::quotient` / `eaf::remainder` from `src/common.hpp`;
* the fast-EAF coefficient/bound derivation `get_fast_eaf` from
  `src/paper/fast_eaf.cpp` (the boost `int128_t` intermediate arithmetic is
  modelled by `ℤ`, following the source's stated purpose of the wide type:
  exact intermediate products);
* the calendar conversions of `src/eaf/julian.hpp`, `src/eaf/gregorian.hpp`
  (plain and optimised/epoch-shifted variants) and the bounds of
  `src/eaf/limits.hpp`.  The C++ `T` (`int32_t`/`int64_t`) and
  `std::make_unsigned<T>` arithmetic is modelled by `ℤ` together with
  explicit two's-complement wrapping (`wrapS`) and modulo-`2^W` reduction
  (`wrapU`) at each operation on those types; `uint32_t` intermediates whose
  values are structurally below `2^32` are kept as plain integers.
-/

namespace EAF

/-- Two's-complement wrap of an integer to a signed `W`-bit value: the unique
integer congruent to `x` modulo `2^W` lying in `[-2^(W-1), 2^(W-1))`. -/
def wrapS (W : ℕ) (x : ℤ) : ℤ := (x + 2 ^ (W - 1)) % 2 ^ W - 2 ^ (W - 1)

/-- Reduction of an integer modulo `2^W`: the value of an unsigned `W`-bit
variable holding `x`. -/
def wrapU (W : ℕ) (x : ℤ) : ℤ := x % 2 ^ W

theorem wrapS_eq_self {W : ℕ} {x : ℤ} (hW : 1 ≤ W)
    (h1 : -(2 ^ (W - 1)) ≤ x) (h2 : x < 2 ^ (W - 1)) : wrapS W x = x := by
  have hpow : (2 : ℤ) ^ W = 2 ^ (W - 1) * 2 := by
    rw [← pow_succ]
    congr 1
    omega
  have h0 : 0 ≤ x + 2 ^ (W - 1) := by linarith
  have hlt : x + 2 ^ (W - 1) < 2 ^ W := by rw [hpow]; linarith
  unfold wrapS
  rw [Int.emod_eq_of_lt h0 hlt]
  ring

theorem wrapS_lb (W : ℕ) (x : ℤ) : -(2 ^ (W - 1)) ≤ wrapS W x := by
  have := Int.emod_nonneg (x + 2 ^ (W - 1)) (b := 2 ^ W) (by positivity)
  unfold wrapS
  omega

theorem wrapS_lt (W : ℕ) (x : ℤ) (hW : 1 ≤ W) : wrapS W x < 2 ^ (W - 1) := by
  have hpow : (2 : ℤ) ^ W = 2 ^ (W - 1) * 2 := by
    rw [← pow_succ]
    congr 1
    omega
  have := Int.emod_lt_of_pos (x + 2 ^ (W - 1)) (b := 2 ^ W) (by positivity)
  unfold wrapS
  omega

theorem wrapS_emod (W : ℕ) (x : ℤ) : wrapS W x % 2 ^ W = x % 2 ^ W := by
  unfold wrapS
  conv_lhs => rw [Int.sub_emod, Int.emod_emod_of_dvd _ (dvd_refl _)]
  rw [← Int.sub_emod]
  congr 1
  ring

theorem wrapU_eq_self {W : ℕ} {x : ℤ} (h1 : 0 ≤ x) (h2 : x < 2 ^ W) :
    wrapU W x = x :=
  Int.emod_eq_of_lt h1 h2

theorem wrapU_nonneg (W : ℕ) (x : ℤ) : 0 ≤ wrapU W x :=
  Int.emod_nonneg x (by positivity)

theorem wrapU_lt (W : ℕ) (x : ℤ) : wrapU W x < 2 ^ W :=
  Int.emod_lt_of_pos x (by positivity)

theorem wrapU_emod (W : ℕ) (x : ℤ) : wrapU W x % 2 ^ W = x % 2 ^ W :=
  Int.emod_emod_of_dvd x (dvd_refl _)

/-- `eaf::quotient` from `src/common.hpp` with exact (unbounded)
intermediate arithmetic: `n >= 0 ? n / d : (n - (d - 1)) / d` on top of the
C++ `/` operator (truncation towards zero, `Int.tdiv`).  This is the
function the source computes whenever the `T`-typed adjustment `n - (d - 1)`
does not overflow; the faithful `W`-bit model, in which that adjustment
wraps, is `quotient_w` below. -/
def quotient (n d : ℤ) : ℤ := if 0 ≤ n then n.tdiv d else (n - (d - 1)).tdiv d

/-- `eaf::remainder` from `src/common.hpp` with exact (unbounded)
intermediate arithmetic: `n >= 0 ? n % d : n - d * quotient(n, d)` with the
C++ `%` operator (truncated remainder, `Int.tmod`).  The faithful `W`-bit
model, with the `T`-typed wrapping and the `uint32_t` narrowing of the
source, is `remainder_w` below. -/
def remainder (n d : ℤ) : ℤ := if 0 ≤ n then n.tmod d else n - d * quotient n d

/-- On strictly positive divisors, `eaf::quotient` is floor division, which
on `ℤ` in Lean is the `/` of `Int.ediv`. -/
theorem quotient_eq_ediv (n : ℤ) {d : ℤ} (hd : 0 < d) : quotient n d = n / d := by
  unfold quotient
  by_cases hn : 0 ≤ n
  · rw [if_pos hn, Int.tdiv_eq_ediv hn hd.le]
  · rw [if_neg hn]
    push_neg at hn
    -- for n < 0 write n - (d - 1) = -(d - 1 - n) with d - 1 - n > 0
    have hm : 0 ≤ d - 1 - n := by omega
    have h1 : n - (d - 1) = -(d - 1 - n) := by ring
    rw [h1, Int.neg_tdiv, Int.tdiv_eq_ediv hm hd.le]
    -- characterise n / d via the Euclidean division of d - 1 - n by d
    have hq := Int.ediv_add_emod (d - 1 - n) d
    have hr0 := Int.emod_nonneg (d - 1 - n) hd.ne'
    have hrd := Int.emod_lt_of_pos (d - 1 - n) hd
    have h2 :=
      (Int.ediv_emod_unique (a := n) (q := -((d - 1 - n) / d))
        (r := d - 1 - (d - 1 - n) % d) hd).mpr
        ⟨by linear_combination -hq, by omega, by omega⟩
    exact h2.1.symm

theorem remainder_eq_emod (n : ℤ) {d : ℤ} (hd : 0 < d) : remainder n d = n % d := by
  unfold remainder
  by_cases hn : 0 ≤ n
  · rw [if_pos hn, Int.tmod_eq_emod hn hd.le]
  · rw [if_neg hn, quotient_eq_ediv n hd, Int.emod_def]

/-- The Euclidean division property of the exact model: used below to
reduce the in-range behaviour of the wrapping model to `ediv`/`emod`. -/
theorem quotient_remainder_exact (n d : ℤ) (hd : 0 < d) :
    n = quotient n d * d + remainder n d ∧
      0 ≤ remainder n d ∧ remainder n d < d := by
  rw [quotient_eq_ediv n hd, remainder_eq_emod n hd]
  refine ⟨?_, Int.emod_nonneg n hd.ne', Int.emod_lt_of_pos n hd⟩
  have := Int.ediv_add_emod n d
  linarith

/-! ### Running minimum / maximum

The loops in `get_fast_eaf` that search for `b'` and for the upper bound `U`
initialise an accumulator with the value at `n = 0` and then fold `min`
(respectively `max`) over `n = 1, ..., d - 1`.  `min_upto f m` is the value
of the accumulator after the iteration with `n = m`. -/

def min_upto (f : ℤ → ℤ) : ℕ → ℤ
  | 0 => f 0
  | n + 1 => min (min_upto f n) (f (n + 1))

def max_upto (f : ℤ → ℤ) : ℕ → ℤ
  | 0 => f 0
  | n + 1 => max (max_upto f n) (f (n + 1))

theorem min_upto_le (f : ℤ → ℤ) (m : ℕ) :
    ∀ i : ℕ, i ≤ m → min_upto f m ≤ f i := by
  induction m with
  | zero =>
    intro i hi
    obtain rfl := Nat.le_zero.mp hi
    exact le_refl _
  | succ n ih =>
    intro i hi
    rcases Nat.lt_or_ge i (n + 1) with h | h
    · exact le_trans (min_le_left _ _) (ih i (Nat.lt_succ_iff.mp h))
    · obtain rfl : i = n + 1 := le_antisymm hi h
      exact min_le_right _ _

theorem min_upto_mem (f : ℤ → ℤ) (m : ℕ) :
    ∃ i : ℕ, i ≤ m ∧ min_upto f m = f i := by
  induction m with
  | zero => exact ⟨0, le_refl _, rfl⟩
  | succ n ih =>
    obtain ⟨i, hi, hv⟩ := ih
    rcases min_cases (min_upto f n) (f (n + 1)) with ⟨h, _⟩ | ⟨h, _⟩
    · exact ⟨i, le_trans hi (Nat.le_succ n), by rw [min_upto, h, hv]⟩
    · exact ⟨n + 1, le_refl _, by rw [min_upto, h]; norm_cast⟩

theorem max_upto_ge (f : ℤ → ℤ) (m : ℕ) :
    ∀ i : ℕ, i ≤ m → f i ≤ max_upto f m := by
  induction m with
  | zero =>
    intro i hi
    obtain rfl := Nat.le_zero.mp hi
    exact le_refl _
  | succ n ih =>
    intro i hi
    rcases Nat.lt_or_ge i (n + 1) with h | h
    · exact le_trans (ih i (Nat.lt_succ_iff.mp h)) (le_max_left _ _)
    · obtain rfl : i = n + 1 := le_antisymm hi h
      exact le_max_right _ _

theorem max_upto_mem (f : ℤ → ℤ) (m : ℕ) :
    ∃ i : ℕ, i ≤ m ∧ max_upto f m = f i := by
  induction m with
  | zero => exact ⟨0, le_refl _, rfl⟩
  | succ n ih =>
    obtain ⟨i, hi, hv⟩ := ih
    rcases max_cases (max_upto f n) (f (n + 1)) with ⟨h, _⟩ | ⟨h, _⟩
    · exact ⟨i, le_trans hi (Nat.le_succ n), by rw [max_upto, h, hv]⟩
    · exact ⟨n + 1, le_refl _, by rw [max_upto, h]; norm_cast⟩

/-! ### The fast-EAF derivation engine, `src/paper/fast_eaf.cpp`

The C++ code computes with `boost::multiprecision::int128_t`, whose stated
purpose is to make all intermediate products exact; it is modelled by `ℤ`.
The final narrowing of the results to `uint64_t`/`int64_t` fields, which the
source guards by `assert`s, is not modelled: the theorems below speak about
the exact values.  Each `const` local and lambda of `get_fast_eaf` becomes
one definition, named after it. -/

/-- `eaf_t` of `fast_eaf.cpp`: the coefficients of `f(n) = (a*n + b) / d`. -/
structure eaf_t where
  a : ℤ
  b : ℤ
  d : ℤ
  deriving DecidableEq, Repr

/-- `fast_eaf_t` of `fast_eaf.cpp`: coefficients and upper bound of the fast
EAF.  `fast.d` holds the divisor `2^k` (exactly; the `uint64_t` narrowing of
the C++ field, which wraps to `0` at `k = 64` and is special-cased by the
output routine, is not modelled). -/
structure fast_eaf_t where
  fast : eaf_t
  k : ℕ
  U : ℤ
  deriving DecidableEq, Repr

/-- `rounding_t` of `fast_eaf.cpp`: Theorem 2 (`up`) or Theorem 3 (`down`). -/
inductive rounding_t where
  | up
  | down
  deriving DecidableEq, Repr

def is_rounding_up (rounding : rounding_t) : Bool :=
  match rounding with
  | .up => true
  | .down => false

/-- `q_p2_k_a` in `get_fast_eaf`: `2^k * a / d` (truncating division; the
operands are non-negative for the intended `uint64_t` inputs). -/
def q_p2_k_a (k : ℕ) (eaf : eaf_t) : ℤ := ((2 ^ k : ℤ) * eaf.a).tdiv eaf.d

/-- `r_p2_k_a` in `get_fast_eaf`: `2^k * a % d`. -/
def r_p2_k_a (k : ℕ) (eaf : eaf_t) : ℤ := ((2 ^ k : ℤ) * eaf.a).tmod eaf.d

/-- `a_p` in `get_fast_eaf`: the derived multiplier `a'`. -/
def a_p (rounding : rounding_t) (k : ℕ) (eaf : eaf_t) : ℤ :=
  if is_rounding_up rounding then q_p2_k_a k eaf + 1 else q_p2_k_a k eaf

/-- `epsilon` in `get_fast_eaf`. -/
def epsilon (rounding : rounding_t) (k : ℕ) (eaf : eaf_t) : ℤ :=
  if is_rounding_up rounding then eaf.d - r_p2_k_a k eaf else r_p2_k_a k eaf

/-- The value `f_n` computed inside the lambda `g` of `get_fast_eaf`: the
numerator `a*n + b` is adjusted for negative values so that the truncating
division of the wide integer type gives Euclidean division. -/
def f_n (eaf : eaf_t) (n : ℤ) : ℤ :=
  let num := eaf.a * n + eaf.b
  let adj_num := if 0 ≤ num then num else num - (eaf.d - 1)
  adj_num.tdiv eaf.d

/-- The lambda `g` of `get_fast_eaf`: `g(n) = a' * n - 2^k * f(n)`. -/
def g (rounding : rounding_t) (k : ℕ) (eaf : eaf_t) (n : ℤ) : ℤ :=
  a_p rounding k eaf * n - (2 ^ k : ℤ) * f_n eaf n

/-- `b_p` in `get_fast_eaf`: `b'`, from the loop over `n = 0, ..., d - 1`. -/
def b_p (rounding : rounding_t) (k : ℕ) (eaf : eaf_t) : ℤ :=
  if is_rounding_up rounding then
    -(min_upto (g rounding k eaf) (eaf.d.toNat - 1))
  else
    (2 ^ k : ℤ) - 1 - max_upto (g rounding k eaf) (eaf.d.toNat - 1)

/-- The value `h` computed inside the lambda `Q` of `get_fast_eaf`:
`h(n) = 2^k - (g(n) + b')` when rounding up, `h(n) = g(n) + b'` when
rounding down. -/
def h (rounding : rounding_t) (k : ℕ) (eaf : eaf_t) (n : ℤ) : ℤ :=
  if is_rounding_up rounding then
    (2 ^ k : ℤ) - (g rounding k eaf n + b_p rounding k eaf)
  else
    g rounding k eaf n + b_p rounding k eaf

/-- The lambda `Q` of `get_fast_eaf`.  Rounding up it solves
`Q(n) = min {q >= 0 ; epsilon * q >= h(n)}` (Problem 1), rounding down
`Q(n) = min {q >= 0 ; epsilon * q > h(n)}` (Problem 2), each in closed
form with a branch on the sign of `h(n)`. -/
def Q (rounding : rounding_t) (k : ℕ) (eaf : eaf_t) (n : ℤ) : ℤ :=
  if is_rounding_up rounding then
    if h rounding k eaf n ≤ 0 then 0
    else (h rounding k eaf n + (epsilon rounding k eaf - 1)).tdiv
      (epsilon rounding k eaf)
  else
    if h rounding k eaf n < 0 then 0
    else (h rounding k eaf n).tdiv (epsilon rounding k eaf) + 1

/-- The lambda `P` of `get_fast_eaf`: `P(n) = Q(n) * d + n`. -/
def P (rounding : rounding_t) (k : ℕ) (eaf : eaf_t) (n : ℤ) : ℤ :=
  Q rounding k eaf n * eaf.d + n

/-- The upper bound `U` of `get_fast_eaf`: the minimum of `P` over the loop
`n = 0, ..., d - 1`. -/
def U (rounding : rounding_t) (k : ℕ) (eaf : eaf_t) : ℤ :=
  min_upto (P rounding k eaf) (eaf.d.toNat - 1)

/-- `get_fast_eaf` of `fast_eaf.cpp`, assembled from the pieces above. -/
def get_fast_eaf (rounding : rounding_t) (k : ℕ) (eaf : eaf_t) : fast_eaf_t :=
  { fast := { a := a_p rounding k eaf, b := b_p rounding k eaf, d := 2 ^ k },
    k := k,
    U := U rounding k eaf }

/-! ### Correctness of the fast-EAF engine -/

theorem ediv_eq_zero_iff {x m : ℤ} (hm : 0 < m) : x / m = 0 ↔ 0 ≤ x ∧ x < m := by
  constructor
  · intro h0
    have hxm := Int.ediv_add_emod x m
    rw [h0, mul_zero, zero_add] at hxm
    have h1 := Int.emod_nonneg x hm.ne'
    have h2 := Int.emod_lt_of_pos x hm
    omega
  · intro hx
    exact Int.ediv_eq_zero_of_lt hx.1 hx.2

theorem f_n_eq_quotient (eaf : eaf_t) (n : ℤ) :
    f_n eaf n = quotient (eaf.a * n + eaf.b) eaf.d := by
  unfold f_n quotient
  by_cases hc : 0 ≤ eaf.a * n + eaf.b <;> simp [hc]

theorem f_n_eq (eaf : eaf_t) (hd : 0 < eaf.d) (n : ℤ) :
    f_n eaf n = (eaf.a * n + eaf.b) / eaf.d := by
  rw [f_n_eq_quotient, quotient_eq_ediv _ hd]

theorem q_p2_k_a_eq (k : ℕ) (eaf : eaf_t) (ha : 0 ≤ eaf.a) (hd : 0 < eaf.d) :
    q_p2_k_a k eaf = (2 ^ k * eaf.a) / eaf.d := by
  unfold q_p2_k_a
  exact Int.tdiv_eq_ediv (by positivity) hd.le

theorem r_p2_k_a_eq (k : ℕ) (eaf : eaf_t) (ha : 0 ≤ eaf.a) (hd : 0 < eaf.d) :
    r_p2_k_a k eaf = (2 ^ k * eaf.a) % eaf.d := by
  unfold r_p2_k_a
  exact Int.tmod_eq_emod (by positivity) hd.le

/-- The defining relation of the derived multiplier when rounding up:
`a' * d = 2^k * a + epsilon`. -/
theorem a_p_mul_d_up (k : ℕ) (eaf : eaf_t) (ha : 0 ≤ eaf.a) (hd : 0 < eaf.d) :
    a_p .up k eaf * eaf.d = 2 ^ k * eaf.a + epsilon .up k eaf := by
  have hq := Int.ediv_add_emod (2 ^ k * eaf.a) eaf.d
  rw [show a_p .up k eaf = q_p2_k_a k eaf + 1 from rfl,
    show epsilon .up k eaf = eaf.d - r_p2_k_a k eaf from rfl,
    q_p2_k_a_eq k eaf ha hd, r_p2_k_a_eq k eaf ha hd]
  linear_combination hq

/-- The defining relation of the derived multiplier when rounding down:
`a' * d = 2^k * a - epsilon`. -/
theorem a_p_mul_d_down (k : ℕ) (eaf : eaf_t) (ha : 0 ≤ eaf.a) (hd : 0 < eaf.d) :
    a_p .down k eaf * eaf.d = 2 ^ k * eaf.a - epsilon .down k eaf := by
  have hq := Int.ediv_add_emod (2 ^ k * eaf.a) eaf.d
  rw [show a_p .down k eaf = q_p2_k_a k eaf from rfl,
    show epsilon .down k eaf = r_p2_k_a k eaf from rfl,
    q_p2_k_a_eq k eaf ha hd, r_p2_k_a_eq k eaf ha hd]
  linear_combination hq

theorem epsilon_up_bounds (k : ℕ) (eaf : eaf_t) (ha : 0 ≤ eaf.a)
    (hd : 0 < eaf.d) :
    1 ≤ epsilon .up k eaf ∧ epsilon .up k eaf ≤ eaf.d := by
  rw [show epsilon .up k eaf = eaf.d - r_p2_k_a k eaf from rfl,
    r_p2_k_a_eq k eaf ha hd]
  have h1 := Int.emod_nonneg (2 ^ k * eaf.a) hd.ne'
  have h2 := Int.emod_lt_of_pos (2 ^ k * eaf.a) hd
  omega

theorem epsilon_down_bounds (k : ℕ) (eaf : eaf_t) (ha : 0 ≤ eaf.a)
    (hd : 0 < eaf.d) :
    0 ≤ epsilon .down k eaf ∧ epsilon .down k eaf < eaf.d := by
  rw [show epsilon .down k eaf = r_p2_k_a k eaf from rfl,
    r_p2_k_a_eq k eaf ha hd]
  have h1 := Int.emod_nonneg (2 ^ k * eaf.a) hd.ne'
  have h2 := Int.emod_lt_of_pos (2 ^ k * eaf.a) hd
  omega

/-- `g` evaluated at `q*d + r` in terms of `g r`: the error function is an
affine function of the period count `q`. -/
theorem g_shift (rounding : rounding_t) (k : ℕ) (eaf : eaf_t)
    (hd : 0 < eaf.d) (q r : ℤ) :
    g rounding k eaf (q * eaf.d + r) =
      g rounding k eaf r + q * (a_p rounding k eaf * eaf.d - 2 ^ k * eaf.a) := by
  unfold g
  rw [f_n_eq eaf hd, f_n_eq eaf hd]
  have harg : eaf.a * (q * eaf.d + r) + eaf.b =
      (eaf.a * r + eaf.b) + (eaf.a * q) * eaf.d := by ring
  rw [harg, Int.add_mul_ediv_right _ _ hd.ne']
  ring

/-- `g n` in terms of the value at the residue `n % d`. -/
theorem gb_decomp (rounding : rounding_t) (k : ℕ) (eaf : eaf_t)
    (hd : 0 < eaf.d) (n : ℤ) :
    g rounding k eaf n = g rounding k eaf (n % eaf.d) +
      (n / eaf.d) * (a_p rounding k eaf * eaf.d - 2 ^ k * eaf.a) := by
  conv_lhs =>
    rw [show n = (n / eaf.d) * eaf.d + n % eaf.d from by
      linarith [Int.ediv_add_emod n eaf.d]]
  exact g_shift rounding k eaf hd _ _

/-- Rounding up, the loop-computed `b'` makes `g r + b'` non-negative on
every residue `r` in `[0, d)`. -/
theorem gb_nonneg_up (k : ℕ) (eaf : eaf_t) (hd : 0 < eaf.d) (r : ℤ)
    (hr0 : 0 ≤ r) (hrd : r < eaf.d) :
    0 ≤ g .up k eaf r + b_p .up k eaf := by
  have hle := min_upto_le (g .up k eaf) (eaf.d.toNat - 1) r.toNat (by omega)
  rw [Int.toNat_of_nonneg hr0] at hle
  rw [show b_p .up k eaf = -(min_upto (g .up k eaf) (eaf.d.toNat - 1)) from rfl]
  linarith

/-- Rounding down, the loop-computed `b'` keeps `g r + b'` at most
`2^k - 1` on every residue `r` in `[0, d)`. -/
theorem gb_le_down (k : ℕ) (eaf : eaf_t) (hd : 0 < eaf.d) (r : ℤ)
    (hr0 : 0 ≤ r) (hrd : r < eaf.d) :
    g .down k eaf r + b_p .down k eaf ≤ 2 ^ k - 1 := by
  have hge := max_upto_ge (g .down k eaf) (eaf.d.toNat - 1) r.toNat (by omega)
  rw [Int.toNat_of_nonneg hr0] at hge
  rw [show b_p .down k eaf =
    (2 ^ k : ℤ) - 1 - max_upto (g .down k eaf) (eaf.d.toNat - 1) from rfl]
  linarith

/-- The closed form of `Q` rounding up solves Problem 1 of the source:
`Q(n)` is non-negative, `epsilon * Q(n) >= h(n)`, and every smaller
non-negative `q` has `epsilon * q < h(n)`. -/
theorem Q_up_spec (k : ℕ) (eaf : eaf_t) (hε : 1 ≤ epsilon .up k eaf) (n : ℤ) :
    0 ≤ Q .up k eaf n ∧
      h .up k eaf n ≤ epsilon .up k eaf * Q .up k eaf n ∧
      ∀ q : ℤ, 0 ≤ q → q < Q .up k eaf n →
        epsilon .up k eaf * q < h .up k eaf n := by
  have hQdef : Q .up k eaf n = if h .up k eaf n ≤ 0 then 0
      else (h .up k eaf n + (epsilon .up k eaf - 1)).tdiv (epsilon .up k eaf) :=
    rfl
  by_cases hH : h .up k eaf n ≤ 0
  · rw [hQdef, if_pos hH]
    refine ⟨le_refl 0, by linarith, ?_⟩
    intro q hq0 hq1
    omega
  · push_neg at hH
    have hεpos : 0 < epsilon .up k eaf := by linarith
    have htd : (h .up k eaf n + (epsilon .up k eaf - 1)).tdiv
        (epsilon .up k eaf) =
        (h .up k eaf n - 1) / epsilon .up k eaf + 1 := by
      rw [Int.tdiv_eq_ediv (by linarith) hεpos.le,
        show h .up k eaf n + (epsilon .up k eaf - 1) =
          (h .up k eaf n - 1) + 1 * epsilon .up k eaf from by ring,
        Int.add_mul_ediv_right _ _ hεpos.ne']
  
    rw [hQdef, if_neg (not_le.mpr hH), htd]
    have hd0 : 0 ≤ (h .up k eaf n - 1) / epsilon .up k eaf :=
      Int.ediv_nonneg (by linarith) hεpos.le
    refine ⟨by linarith, ?_, ?_⟩
    · have hlt := (Int.ediv_lt_iff_lt_mul (a := h .up k eaf n - 1)
        (b := (h .up k eaf n - 1) / epsilon .up k eaf + 1) hεpos).mp
        (lt_add_one _)
      linarith [hlt, mul_comm (epsilon .up k eaf)
        ((h .up k eaf n - 1) / epsilon .up k eaf + 1)]
    · intro q hq0 hq1
      have hqle : q ≤ (h .up k eaf n - 1) / epsilon .up k eaf := by omega
      have := (Int.le_ediv_iff_mul_le hεpos).mp hqle
      linarith [mul_comm q (epsilon .up k eaf)]

/-- The closed form of `Q` rounding down solves Problem 2 of the source:
`Q(n)` is non-negative, `epsilon * Q(n) > h(n)`, and every smaller
non-negative `q` has `epsilon * q <= h(n)`. -/
theorem Q_down_spec (k : ℕ) (eaf : eaf_t) (hε : 1 ≤ epsilon .down k eaf)
    (n : ℤ) :
    0 ≤ Q .down k eaf n ∧
      h .down k eaf n < epsilon .down k eaf * Q .down k eaf n ∧
      ∀ q : ℤ, 0 ≤ q → q < Q .down k eaf n →
        epsilon .down k eaf * q ≤ h .down k eaf n := by
  have hQdef : Q .down k eaf n = if h .down k eaf n < 0 then 0
      else (h .down k eaf n).tdiv (epsilon .down k eaf) + 1 := rfl
  have hεpos : 0 < epsilon .down k eaf := by linarith
  by_cases hH : h .down k eaf n < 0
  · rw [hQdef, if_pos hH]
    refine ⟨le_refl 0, by linarith, ?_⟩
    intro q hq0 hq1
    omega
  · push_neg at hH
    have htd : (h .down k eaf n).tdiv (epsilon .down k eaf) =
        h .down k eaf n / epsilon .down k eaf :=
      Int.tdiv_eq_ediv hH hεpos.le
    rw [hQdef, if_neg (not_lt.mpr hH), htd]
    have hd0 : 0 ≤ h .down k eaf n / epsilon .down k eaf :=
      Int.ediv_nonneg hH hεpos.le
    refine ⟨by linarith, ?_, ?_⟩
    · have hlt := (Int.ediv_lt_iff_lt_mul (a := h .down k eaf n)
        (b := h .down k eaf n / epsilon .down k eaf + 1) hεpos).mp
        (lt_add_one _)
      linarith [hlt, mul_comm (epsilon .down k eaf)
        (h .down k eaf n / epsilon .down k eaf + 1)]
    · intro q hq0 hq1
      have hqle : q ≤ h .down k eaf n / epsilon .down k eaf := by omega
      have := (Int.le_ediv_iff_mul_le hεpos).mp hqle
      linarith [mul_comm q (epsilon .down k eaf)]

/-- The fast value `(a' * n + b') / 2^k` splits into the exact value `f(n)`
plus the scaled error `(g n + b') / 2^k`. -/
theorem f_fast_split (rounding : rounding_t) (k : ℕ) (eaf : eaf_t) (n : ℤ) :
    (a_p rounding k eaf * n + b_p rounding k eaf) / 2 ^ k =
      f_n eaf n + (g rounding k eaf n + b_p rounding k eaf) / 2 ^ k := by
  have hpk : ((2 : ℤ) ^ k) ≠ 0 := by positivity
  rw [show a_p rounding k eaf * n + b_p rounding k eaf =
    (g rounding k eaf n + b_p rounding k eaf) + 2 ^ k * f_n eaf n from by
      unfold g; ring]
  rw [Int.add_mul_ediv_left _ _ hpk]
  ring

/-- Rounding up, the fast EAF agrees with the exact EAF on `[0, U)`. -/
theorem fast_eaf_agrees_up (k : ℕ) (eaf : eaf_t) (ha : 0 ≤ eaf.a)
    (hd : 0 < eaf.d) :
    ∀ n : ℤ, 0 ≤ n → n < U .up k eaf →
      (eaf.a * n + eaf.b) / eaf.d =
        (a_p .up k eaf * n + b_p .up k eaf) / 2 ^ k := by
  intro n hn hnU
  have hpk : (0 : ℤ) < 2 ^ k := by positivity
  obtain ⟨hε1, hε2⟩ := epsilon_up_bounds k eaf ha hd
  have hfac : a_p .up k eaf * eaf.d - 2 ^ k * eaf.a = epsilon .up k eaf := by
    linarith [a_p_mul_d_up k eaf ha hd]
  have hr0 : 0 ≤ n % eaf.d := Int.emod_nonneg n hd.ne'
  have hrd : n % eaf.d < eaf.d := Int.emod_lt_of_pos n hd
  have hq0 : 0 ≤ n / eaf.d := Int.ediv_nonneg hn hd.le
  have hdec := gb_decomp .up k eaf hd n
  rw [hfac] at hdec
  have hgbr := gb_nonneg_up k eaf hd (n % eaf.d) hr0 hrd
  have hlow : 0 ≤ g .up k eaf n + b_p .up k eaf := by
    have hqe : 0 ≤ n / eaf.d * epsilon .up k eaf :=
      mul_nonneg hq0 (by linarith)
    linarith
  have hPU : U .up k eaf ≤ P .up k eaf (n % eaf.d) := by
    have hle := min_upto_le (P .up k eaf) (eaf.d.toNat - 1)
      (n % eaf.d).toNat (by omega)
    rw [Int.toNat_of_nonneg hr0] at hle
    exact hle
  have hP : P .up k eaf (n % eaf.d) =
      Q .up k eaf (n % eaf.d) * eaf.d + n % eaf.d := rfl
  have hqQ : n / eaf.d < Q .up k eaf (n % eaf.d) := by
    have hne := Int.ediv_add_emod n eaf.d
    by_contra hcon
    push_neg at hcon
    have hmul : Q .up k eaf (n % eaf.d) * eaf.d ≤ n / eaf.d * eaf.d :=
      mul_le_mul_of_nonneg_right hcon hd.le
    linarith
  have hspec := Q_up_spec k eaf hε1 (n % eaf.d)
  have hlt := hspec.2.2 (n / eaf.d) hq0 hqQ
  have hh : h .up k eaf (n % eaf.d) =
      2 ^ k - (g .up k eaf (n % eaf.d) + b_p .up k eaf) := rfl
  have hupb : g .up k eaf n + b_p .up k eaf < 2 ^ k := by
    have hcomm : epsilon .up k eaf * (n / eaf.d) =
        n / eaf.d * epsilon .up k eaf := mul_comm _ _
    linarith
  rw [← f_n_eq eaf hd n, f_fast_split .up k eaf n,
    (ediv_eq_zero_iff hpk).mpr ⟨hlow, hupb⟩, add_zero]

/-- Rounding up, the fast EAF disagrees with the exact EAF at `n = U`. -/
theorem fast_eaf_fails_up (k : ℕ) (eaf : eaf_t) (ha : 0 ≤ eaf.a)
    (hd : 0 < eaf.d) :
    (eaf.a * U .up k eaf + eaf.b) / eaf.d ≠
      (a_p .up k eaf * U .up k eaf + b_p .up k eaf) / 2 ^ k := by
  have hpk : (0 : ℤ) < 2 ^ k := by positivity
  obtain ⟨hε1, hε2⟩ := epsilon_up_bounds k eaf ha hd
  have hfac : a_p .up k eaf * eaf.d - 2 ^ k * eaf.a = epsilon .up k eaf := by
    linarith [a_p_mul_d_up k eaf ha hd]
  obtain ⟨i, hi, hUm⟩ := min_upto_mem (P .up k eaf) (eaf.d.toNat - 1)
  have hUeq : U .up k eaf = Q .up k eaf (i : ℤ) * eaf.d + (i : ℤ) := hUm
  have hi0 : (0 : ℤ) ≤ (i : ℤ) := Int.natCast_nonneg i
  have hid : (i : ℤ) < eaf.d := by omega
  obtain ⟨hQ0, hQge, _⟩ := Q_up_spec k eaf hε1 (i : ℤ)
  have hgb := gb_nonneg_up k eaf hd (i : ℤ) hi0 hid
  have hgU : g .up k eaf (U .up k eaf) =
      g .up k eaf (i : ℤ) + Q .up k eaf (i : ℤ) * epsilon .up k eaf := by
    rw [hUeq, g_shift .up k eaf hd _ _, hfac]
  have hh : h .up k eaf (i : ℤ) =
      2 ^ k - (g .up k eaf (i : ℤ) + b_p .up k eaf) := rfl
  have hge : 2 ^ k ≤ g .up k eaf (U .up k eaf) + b_p .up k eaf := by
    have hcomm : epsilon .up k eaf * Q .up k eaf (i : ℤ) =
        Q .up k eaf (i : ℤ) * epsilon .up k eaf := mul_comm _ _
    linarith
  intro hcontra
  rw [← f_n_eq eaf hd, f_fast_split .up k eaf] at hcontra
  have hz : (g .up k eaf (U .up k eaf) + b_p .up k eaf) / 2 ^ k = 0 := by
    linarith
  have hzz := (ediv_eq_zero_iff hpk).mp hz
  linarith [hzz.2]

/-- Rounding down, the fast EAF agrees with the exact EAF on `[0, U)`
(provided `epsilon` is non-zero, i.e. the computed bound is meaningful). -/
theorem fast_eaf_agrees_down (k : ℕ) (eaf : eaf_t) (ha : 0 ≤ eaf.a)
    (hd : 0 < eaf.d) (hε1 : 1 ≤ epsilon .down k eaf) :
    ∀ n : ℤ, 0 ≤ n → n < U .down k eaf →
      (eaf.a * n + eaf.b) / eaf.d =
        (a_p .down k eaf * n + b_p .down k eaf) / 2 ^ k := by
  intro n hn hnU
  have hpk : (0 : ℤ) < 2 ^ k := by positivity
  have hfac : a_p .down k eaf * eaf.d - 2 ^ k * eaf.a =
      -epsilon .down k eaf := by
    linarith [a_p_mul_d_down k eaf ha hd]
  have hr0 : 0 ≤ n % eaf.d := Int.emod_nonneg n hd.ne'
  have hrd : n % eaf.d < eaf.d := Int.emod_lt_of_pos n hd
  have hq0 : 0 ≤ n / eaf.d := Int.ediv_nonneg hn hd.le
  have hdec := gb_decomp .down k eaf hd n
  rw [hfac] at hdec
  have hgbr := gb_le_down k eaf hd (n % eaf.d) hr0 hrd
  have hqe : 0 ≤ n / eaf.d * epsilon .down k eaf :=
    mul_nonneg hq0 (by linarith)
  have hupb : g .down k eaf n + b_p .down k eaf < 2 ^ k := by
    have hmn : n / eaf.d * -epsilon .down k eaf =
        -(n / eaf.d * epsilon .down k eaf) := by ring
    linarith
  have hPU : U .down k eaf ≤ P .down k eaf (n % eaf.d) := by
    have hle := min_upto_le (P .down k eaf) (eaf.d.toNat - 1)
      (n % eaf.d).toNat (by omega)
    rw [Int.toNat_of_nonneg hr0] at hle
    exact hle
  have hP : P .down k eaf (n % eaf.d) =
      Q .down k eaf (n % eaf.d) * eaf.d + n % eaf.d := rfl
  have hqQ : n / eaf.d < Q .down k eaf (n % eaf.d) := by
    have hne := Int.ediv_add_emod n eaf.d
    by_contra hcon
    push_neg at hcon
    have hmul : Q .down k eaf (n % eaf.d) * eaf.d ≤ n / eaf.d * eaf.d :=
      mul_le_mul_of_nonneg_right hcon hd.le
    linarith
  have hspec := Q_down_spec k eaf hε1 (n % eaf.d)
  have hle := hspec.2.2 (n / eaf.d) hq0 hqQ
  have hh : h .down k eaf (n % eaf.d) =
      g .down k eaf (n % eaf.d) + b_p .down k eaf := rfl
  have hlow : 0 ≤ g .down k eaf n + b_p .down k eaf := by
    have hcomm : epsilon .down k eaf * (n / eaf.d) =
        n / eaf.d * epsilon .down k eaf := mul_comm _ _
    have hmn : n / eaf.d * -epsilon .down k eaf =
        -(n / eaf.d * epsilon .down k eaf) := by ring
    linarith
  rw [← f_n_eq eaf hd n, f_fast_split .down k eaf n,
    (ediv_eq_zero_iff hpk).mpr ⟨hlow, hupb⟩, add_zero]

/-- Rounding down, the fast EAF disagrees with the exact EAF at `n = U`
(provided `epsilon` is non-zero). -/
theorem fast_eaf_fails_down (k : ℕ) (eaf : eaf_t) (ha : 0 ≤ eaf.a)
    (hd : 0 < eaf.d) (hε1 : 1 ≤ epsilon .down k eaf) :
    (eaf.a * U .down k eaf + eaf.b) / eaf.d ≠
      (a_p .down k eaf * U .down k eaf + b_p .down k eaf) / 2 ^ k := by
  have hpk : (0 : ℤ) < 2 ^ k := by positivity
  have hfac : a_p .down k eaf * eaf.d - 2 ^ k * eaf.a =
      -epsilon .down k eaf := by
    linarith [a_p_mul_d_down k eaf ha hd]
  obtain ⟨i, hi, hUm⟩ := min_upto_mem (P .down k eaf) (eaf.d.toNat - 1)
  have hUeq : U .down k eaf = Q .down k eaf (i : ℤ) * eaf.d + (i : ℤ) := hUm
  have hi0 : (0 : ℤ) ≤ (i : ℤ) := Int.natCast_nonneg i
  have hid : (i : ℤ) < eaf.d := by omega
  obtain ⟨hQ0, hQgt, _⟩ := Q_down_spec k eaf hε1 (i : ℤ)
  have hgU : g .down k eaf (U .down k eaf) =
      g .down k eaf (i : ℤ) + Q .down k eaf (i : ℤ) * -epsilon .down k eaf := by
    rw [hUeq, g_shift .down k eaf hd _ _, hfac]
  have hh : h .down k eaf (i : ℤ) =
      g .down k eaf (i : ℤ) + b_p .down k eaf := rfl
  have hneg : g .down k eaf (U .down k eaf) + b_p .down k eaf < 0 := by
    have hcomm : epsilon .down k eaf * Q .down k eaf (i : ℤ) =
        Q .down k eaf (i : ℤ) * epsilon .down k eaf := mul_comm _ _
    have hmn : Q .down k eaf (i : ℤ) * -epsilon .down k eaf =
        -(Q .down k eaf (i : ℤ) * epsilon .down k eaf) := by ring
    linarith
  intro hcontra
  rw [← f_n_eq eaf hd, f_fast_split .down k eaf] at hcontra
  have hz : (g .down k eaf (U .down k eaf) + b_p .down k eaf) / 2 ^ k = 0 := by
    linarith
  have hzz := (ediv_eq_zero_iff hpk).mp hz
  linarith [hzz.1]

/-- C1: for every EAF `(a, b, d)` with `a` a `uint64_t` value, `b` an
`int64_t` value and `d > 0`, every rounding mode, and every `k` in
`[1, 64]`, the result `(a', b', 2^k, U)` of `get_fast_eaf` satisfies
`(a*n + b) / d = (a'*n + b') / 2^k` (floor/Euclidean division) for every
integer `n` in `[0, U)`, and this equality fails at `n = U` whenever `U` is
finite (rounding down with `epsilon = 0` makes the true bound infinite; the
C++ program has no answer there, its closed form divides by zero). -/
theorem get_fast_eaf_correct_bound (rounding : rounding_t) (k : ℕ)
    (eaf : eaf_t) (ha : 0 ≤ eaf.a) (hd : 0 < eaf.d)
    (hk1 : 1 ≤ k) (hk64 : k ≤ 64)
    (hfin : rounding = .up ∨ epsilon rounding k eaf ≠ 0) :
    (∀ n : ℤ, 0 ≤ n → n < (get_fast_eaf rounding k eaf).U →
        (eaf.a * n + eaf.b) / eaf.d =
          ((get_fast_eaf rounding k eaf).fast.a * n +
              (get_fast_eaf rounding k eaf).fast.b) /
            (get_fast_eaf rounding k eaf).fast.d) ∧
      (eaf.a * (get_fast_eaf rounding k eaf).U + eaf.b) / eaf.d ≠
        ((get_fast_eaf rounding k eaf).fast.a *
              (get_fast_eaf rounding k eaf).U +
            (get_fast_eaf rounding k eaf).fast.b) /
          (get_fast_eaf rounding k eaf).fast.d := by
  cases rounding with
  | up =>
    exact ⟨fast_eaf_agrees_up k eaf ha hd, fast_eaf_fails_up k eaf ha hd⟩
  | down =>
    have hε0 : epsilon .down k eaf ≠ 0 := by
      rcases hfin with hc | hc
      · exact absurd hc (by intro hcc; cases hcc)
      · exact hc
    have hε1 : 1 ≤ epsilon .down k eaf := by
      obtain ⟨hεa, hεb⟩ := epsilon_down_bounds k eaf ha hd
      omega
    exact ⟨fast_eaf_agrees_down k eaf ha hd hε1,
      fast_eaf_fails_down k eaf ha hd hε1⟩

theorem get_fast_eaf_correct_bound_witness :
    ((0 : ℤ) ≤ (⟨1, 0, 2⟩ : eaf_t).a ∧ (0 : ℤ) < (⟨1, 0, 2⟩ : eaf_t).d ∧
        1 ≤ 1 ∧ 1 ≤ 64) ∧
      (∀ n : ℤ, 0 ≤ n → n < (get_fast_eaf .up 1 ⟨1, 0, 2⟩).U →
          ((⟨1, 0, 2⟩ : eaf_t).a * n + (⟨1, 0, 2⟩ : eaf_t).b) /
              (⟨1, 0, 2⟩ : eaf_t).d =
            ((get_fast_eaf .up 1 ⟨1, 0, 2⟩).fast.a * n +
                (get_fast_eaf .up 1 ⟨1, 0, 2⟩).fast.b) /
              (get_fast_eaf .up 1 ⟨1, 0, 2⟩).fast.d) ∧
        ((⟨1, 0, 2⟩ : eaf_t).a * (get_fast_eaf .up 1 ⟨1, 0, 2⟩).U +
              (⟨1, 0, 2⟩ : eaf_t).b) / (⟨1, 0, 2⟩ : eaf_t).d ≠
          ((get_fast_eaf .up 1 ⟨1, 0, 2⟩).fast.a *
                (get_fast_eaf .up 1 ⟨1, 0, 2⟩).U +
              (get_fast_eaf .up 1 ⟨1, 0, 2⟩).fast.b) /
            (get_fast_eaf .up 1 ⟨1, 0, 2⟩).fast.d :=
  ⟨⟨by decide, by decide, by decide, by decide⟩,
    get_fast_eaf_correct_bound .up 1 ⟨1, 0, 2⟩ (by decide) (by decide)
      (by decide) (by decide) (Or.inl rfl)⟩

/-! ### The derived coefficients (claims about round-up mode)

The source sets `a' = 2^k * a / d + 1` unconditionally in round-up mode.
When `d` divides `2^k * a` this is strictly larger than the ceiling
`ceil(2^k * a / d)`; for a positive divisor that ceiling is the integer
`(2^k * a + (d - 1)) / d`. -/

/-- On a positive divisor, `(x + (d - 1)) / d` is the ceiling of `x / d`;
when `d` does not divide `x` it equals `x / d + 1`. -/
theorem ceil_div_of_not_dvd {x d : ℤ} (hd : 0 < d) (hndvd : ¬ d ∣ x) :
    (x + (d - 1)) / d = x / d + 1 := by
  have hq := Int.ediv_add_emod x d
  have hr0 := Int.emod_nonneg x hd.ne'
  have hrd := Int.emod_lt_of_pos x hd
  have hrne : x % d ≠ 0 := fun hc => hndvd (Int.dvd_of_emod_eq_zero hc)
  have h2 :=
    (Int.ediv_emod_unique (a := x + (d - 1)) (q := x / d + 1)
      (r := x % d - 1) hd).mpr ⟨by linarith, by omega, by omega⟩
  exact h2.1

/-- Counterexample to C5 as stated: with the EAF `(a, b, d) = (1, 0, 1)` and
`k = 1`, round-up mode sets `a' = 2^1 * 1 / 1 + 1 = 3`, while the ceiling
`ceil(2^1 * 1 / 1) = (2^1 * 1 + (1 - 1)) / 1` is `2`: when `d` divides
`2^k * a` the derived multiplier is not the ceiling. -/
theorem get_fast_eaf_up_ceil_counterexample :
    (get_fast_eaf .up 1 ⟨1, 0, 1⟩).fast.a = 3 ∧
      (2 ^ 1 * (⟨1, 0, 1⟩ : eaf_t).a + ((⟨1, 0, 1⟩ : eaf_t).d - 1)) /
          (⟨1, 0, 1⟩ : eaf_t).d = 2 ∧
      (⟨1, 0, 1⟩ : eaf_t).d ∣ 2 ^ 1 * (⟨1, 0, 1⟩ : eaf_t).a := by
  refine ⟨by decide, by decide, ⟨2, by decide⟩⟩

/-- C5 (amended): in round-up mode `get_fast_eaf` derives
`a' = floor(2^k * a / d) + 1`, which equals `ceil(2^k * a / d)` whenever
`d` does not divide `2^k * a`; the residual error is
`epsilon = d - (2^k * a mod d)`; and `b'` is the negative of the minimum,
over `n` in `[0, d)`, of `g(n) = a' * n - 2^k * floor((a*n + b) / d)`. -/
theorem get_fast_eaf_up_coefficients (k : ℕ) (eaf : eaf_t)
    (ha : 0 ≤ eaf.a) (hd : 0 < eaf.d) (hk1 : 1 ≤ k) (hk64 : k ≤ 64) :
    (get_fast_eaf .up k eaf).fast.a = 2 ^ k * eaf.a / eaf.d + 1 ∧
      (¬ eaf.d ∣ 2 ^ k * eaf.a →
        (get_fast_eaf .up k eaf).fast.a =
          (2 ^ k * eaf.a + (eaf.d - 1)) / eaf.d) ∧
      epsilon .up k eaf = eaf.d - 2 ^ k * eaf.a % eaf.d ∧
      (∀ r : ℤ, 0 ≤ r → r < eaf.d →
        -(get_fast_eaf .up k eaf).fast.b ≤
          (get_fast_eaf .up k eaf).fast.a * r -
            2 ^ k * ((eaf.a * r + eaf.b) / eaf.d)) ∧
      (∃ r : ℤ, 0 ≤ r ∧ r < eaf.d ∧
        (get_fast_eaf .up k eaf).fast.a * r -
            2 ^ k * ((eaf.a * r + eaf.b) / eaf.d) =
          -(get_fast_eaf .up k eaf).fast.b) := by
  have hfa : (get_fast_eaf .up k eaf).fast.a = q_p2_k_a k eaf + 1 := rfl
  have hfb : (get_fast_eaf .up k eaf).fast.b = b_p .up k eaf := rfl
  have hgr : ∀ r : ℤ,
      (get_fast_eaf .up k eaf).fast.a * r -
        2 ^ k * ((eaf.a * r + eaf.b) / eaf.d) = g .up k eaf r := by
    intro r
    rw [← f_n_eq eaf hd r]
    rfl
  refine ⟨by rw [hfa, q_p2_k_a_eq k eaf ha hd], ?_, ?_, ?_, ?_⟩
  · intro hndvd
    rw [hfa, q_p2_k_a_eq k eaf ha hd, ceil_div_of_not_dvd hd hndvd]
  · rw [show epsilon .up k eaf = eaf.d - r_p2_k_a k eaf from rfl,
      r_p2_k_a_eq k eaf ha hd]
  · intro r hr0 hrd
    rw [hgr r, hfb]
    have := gb_nonneg_up k eaf hd r hr0 hrd
    linarith
  · obtain ⟨i, hi, hm⟩ := min_upto_mem (g .up k eaf) (eaf.d.toNat - 1)
    refine ⟨(i : ℤ), Int.natCast_nonneg i, by omega, ?_⟩
    rw [hgr, hfb,
      show b_p .up k eaf =
        -(min_upto (g .up k eaf) (eaf.d.toNat - 1)) from rfl, hm, neg_neg]

theorem get_fast_eaf_up_coefficients_witness :
    ((0 : ℤ) ≤ (⟨1, 0, 2⟩ : eaf_t).a ∧ (0 : ℤ) < (⟨1, 0, 2⟩ : eaf_t).d ∧
        1 ≤ 1 ∧ 1 ≤ 64) ∧
      ((get_fast_eaf .up 1 ⟨1, 0, 2⟩).fast.a =
          2 ^ 1 * (⟨1, 0, 2⟩ : eaf_t).a / (⟨1, 0, 2⟩ : eaf_t).d + 1 ∧
        (¬ (⟨1, 0, 2⟩ : eaf_t).d ∣ 2 ^ 1 * (⟨1, 0, 2⟩ : eaf_t).a →
          (get_fast_eaf .up 1 ⟨1, 0, 2⟩).fast.a =
            (2 ^ 1 * (⟨1, 0, 2⟩ : eaf_t).a + ((⟨1, 0, 2⟩ : eaf_t).d - 1)) /
              (⟨1, 0, 2⟩ : eaf_t).d) ∧
        epsilon .up 1 ⟨1, 0, 2⟩ =
          (⟨1, 0, 2⟩ : eaf_t).d - 2 ^ 1 * (⟨1, 0, 2⟩ : eaf_t).a %
            (⟨1, 0, 2⟩ : eaf_t).d ∧
        (∀ r : ℤ, 0 ≤ r → r < (⟨1, 0, 2⟩ : eaf_t).d →
          -(get_fast_eaf .up 1 ⟨1, 0, 2⟩).fast.b ≤
            (get_fast_eaf .up 1 ⟨1, 0, 2⟩).fast.a * r -
              2 ^ 1 * (((⟨1, 0, 2⟩ : eaf_t).a * r + (⟨1, 0, 2⟩ : eaf_t).b) /
                (⟨1, 0, 2⟩ : eaf_t).d)) ∧
        (∃ r : ℤ, 0 ≤ r ∧ r < (⟨1, 0, 2⟩ : eaf_t).d ∧
          (get_fast_eaf .up 1 ⟨1, 0, 2⟩).fast.a * r -
              2 ^ 1 * (((⟨1, 0, 2⟩ : eaf_t).a * r + (⟨1, 0, 2⟩ : eaf_t).b) /
                (⟨1, 0, 2⟩ : eaf_t).d) =
            -(get_fast_eaf .up 1 ⟨1, 0, 2⟩).fast.b)) :=
  ⟨⟨by decide, by decide, by decide, by decide⟩,
    get_fast_eaf_up_coefficients 1 ⟨1, 0, 2⟩ (by decide) (by decide)
      (by decide) (by decide)⟩

/-- Rounding up, at residue `n` in `[0, d)` and after `q >= 0` extra periods
of `d`, the fast EAF disagrees with the exact EAF exactly when
`epsilon * q >= h(n)` (Problem 1 of the source). -/
theorem fast_eaf_failure_iff_up (k : ℕ) (eaf : eaf_t) (ha : 0 ≤ eaf.a)
    (hd : 0 < eaf.d) (n q : ℤ) (hn0 : 0 ≤ n) (hnd : n < eaf.d) (hq : 0 ≤ q) :
    ((eaf.a * (n + q * eaf.d) + eaf.b) / eaf.d ≠
        (a_p .up k eaf * (n + q * eaf.d) + b_p .up k eaf) / 2 ^ k) ↔
      h .up k eaf n ≤ epsilon .up k eaf * q := by
  have hpk : (0 : ℤ) < 2 ^ k := by positivity
  obtain ⟨hε1, hε2⟩ := epsilon_up_bounds k eaf ha hd
  have hfac : a_p .up k eaf * eaf.d - 2 ^ k * eaf.a = epsilon .up k eaf := by
    linarith [a_p_mul_d_up k eaf ha hd]
  have hg : g .up k eaf (n + q * eaf.d) =
      g .up k eaf n + q * epsilon .up k eaf := by
    rw [show n + q * eaf.d = q * eaf.d + n from by ring,
      g_shift .up k eaf hd, hfac]
  have hgb := gb_nonneg_up k eaf hd n hn0 hnd
  have hqe : 0 ≤ q * epsilon .up k eaf := mul_nonneg hq (by linarith)
  have hh : h .up k eaf n = 2 ^ k - (g .up k eaf n + b_p .up k eaf) := rfl
  have hgbm0 : 0 ≤ g .up k eaf (n + q * eaf.d) + b_p .up k eaf := by linarith
  rw [← f_n_eq eaf hd, f_fast_split .up k eaf]
  constructor
  · intro hne
    by_contra hcon
    push_neg at hcon
    have hcomm : epsilon .up k eaf * q = q * epsilon .up k eaf := mul_comm _ _
    have hlt : g .up k eaf (n + q * eaf.d) + b_p .up k eaf < 2 ^ k := by
      linarith
    exact hne (by rw [(ediv_eq_zero_iff hpk).mpr ⟨hgbm0, hlt⟩, add_zero])
  · intro hge hcontra
    have hz : (g .up k eaf (n + q * eaf.d) + b_p .up k eaf) / 2 ^ k = 0 := by
      linarith
    have hzz := (ediv_eq_zero_iff hpk).mp hz
    have hcomm : epsilon .up k eaf * q = q * epsilon .up k eaf := mul_comm _ _
    linarith [hzz.2]

/-- Rounding down, at residue `n` in `[0, d)` and after `q >= 0` extra
periods of `d`, the fast EAF disagrees with the exact EAF exactly when
`epsilon * q > h(n)` (Problem 2 of the source). -/
theorem fast_eaf_failure_iff_down (k : ℕ) (eaf : eaf_t) (ha : 0 ≤ eaf.a)
    (hd : 0 < eaf.d) (n q : ℤ) (hn0 : 0 ≤ n) (hnd : n < eaf.d) (hq : 0 ≤ q) :
    ((eaf.a * (n + q * eaf.d) + eaf.b) / eaf.d ≠
        (a_p .down k eaf * (n + q * eaf.d) + b_p .down k eaf) / 2 ^ k) ↔
      h .down k eaf n < epsilon .down k eaf * q := by
  have hpk : (0 : ℤ) < 2 ^ k := by positivity
  obtain ⟨hε1, hε2⟩ := epsilon_down_bounds k eaf ha hd
  have hfac : a_p .down k eaf * eaf.d - 2 ^ k * eaf.a =
      -epsilon .down k eaf := by
    linarith [a_p_mul_d_down k eaf ha hd]
  have hg : g .down k eaf (n + q * eaf.d) =
      g .down k eaf n + q * -epsilon .down k eaf := by
    rw [show n + q * eaf.d = q * eaf.d + n from by ring,
      g_shift .down k eaf hd, hfac]
  have hgb := gb_le_down k eaf hd n hn0 hnd
  have hqe : 0 ≤ q * epsilon .down k eaf := mul_nonneg hq hε1
  have hmn : q * -epsilon .down k eaf = -(q * epsilon .down k eaf) := by ring
  have hh : h .down k eaf n = g .down k eaf n + b_p .down k eaf := rfl
  have hgbmlt : g .down k eaf (n + q * eaf.d) + b_p .down k eaf < 2 ^ k := by
    linarith
  rw [← f_n_eq eaf hd, f_fast_split .down k eaf]
  constructor
  · intro hne
    by_contra hcon
    push_neg at hcon
    have hcomm : epsilon .down k eaf * q = q * epsilon .down k eaf :=
      mul_comm _ _
    have hge : 0 ≤ g .down k eaf (n + q * eaf.d) + b_p .down k eaf := by
      linarith
    exact hne (by rw [(ediv_eq_zero_iff hpk).mpr ⟨hge, hgbmlt⟩, add_zero])
  · intro hgt hcontra
    have hz : (g .down k eaf (n + q * eaf.d) + b_p .down k eaf) / 2 ^ k = 0 := by
      linarith
    have hzz := (ediv_eq_zero_iff hpk).mp hz
    have hcomm : epsilon .down k eaf * q = q * epsilon .down k eaf :=
      mul_comm _ _
    linarith [hzz.1]

/-- Counterexample to C6 as stated: in round-down mode the code branches on
`h(n) < 0`, not `h(n) <= 0`.  With the EAF `(2, 0, 3)` and `k = 1`, the
residue `n = 0` has `h(0) = 0`, yet `Q(0) = 1`, not `0`. -/
theorem Q_down_h_zero_counterexample :
    h .down 1 ⟨2, 0, 3⟩ 0 = 0 ∧ Q .down 1 ⟨2, 0, 3⟩ 0 = 1 := by decide

/-- C6 (amended): for both rounding modes, `Q(n)` is the least non-negative
number `q` of additional periods of `d` after which the fast EAF disagrees
with the exact EAF at residue `n` (the error exceeds one unit); its closed
form is `0` when `h(n) <= 0` in round-up mode and when `h(n) < 0` in
round-down mode, and otherwise the ceiling-division formula
`(h(n) + (epsilon - 1)) / epsilon` (round up) or `h(n) / epsilon + 1`
(round down); `P(n) = Q(n)*d + n`, and the returned bound is
`U = min over n in [0, d) of P(n)`. -/
theorem Q_P_U_spec (rounding : rounding_t) (k : ℕ) (eaf : eaf_t)
    (ha : 0 ≤ eaf.a) (hd : 0 < eaf.d) (hk1 : 1 ≤ k) (hk64 : k ≤ 64)
    (hfin : rounding = .up ∨ epsilon rounding k eaf ≠ 0) :
    (∀ n : ℤ, 0 ≤ n → n < eaf.d →
        IsLeast {q : ℤ | 0 ≤ q ∧
            (eaf.a * (n + q * eaf.d) + eaf.b) / eaf.d ≠
              ((get_fast_eaf rounding k eaf).fast.a * (n + q * eaf.d) +
                  (get_fast_eaf rounding k eaf).fast.b) /
                (get_fast_eaf rounding k eaf).fast.d}
          (Q rounding k eaf n)) ∧
      (rounding = .up → ∀ n : ℤ,
        (h .up k eaf n ≤ 0 → Q .up k eaf n = 0) ∧
        (0 < h .up k eaf n → Q .up k eaf n =
          (h .up k eaf n + (epsilon .up k eaf - 1)) / epsilon .up k eaf)) ∧
      (rounding = .down → ∀ n : ℤ,
        (h .down k eaf n < 0 → Q .down k eaf n = 0) ∧
        (0 ≤ h .down k eaf n → Q .down k eaf n =
          h .down k eaf n / epsilon .down k eaf + 1)) ∧
      (∀ n : ℤ, P rounding k eaf n = Q rounding k eaf n * eaf.d + n) ∧
      (∀ n : ℤ, 0 ≤ n → n < eaf.d →
        (get_fast_eaf rounding k eaf).U ≤ P rounding k eaf n) ∧
      (∃ n : ℤ, 0 ≤ n ∧ n < eaf.d ∧
        (get_fast_eaf rounding k eaf).U = P rounding k eaf n) := by
  have hUle : ∀ n : ℤ, 0 ≤ n → n < eaf.d →
      (get_fast_eaf rounding k eaf).U ≤ P rounding k eaf n := by
    intro n hn0 hnd
    have hle := min_upto_le (P rounding k eaf) (eaf.d.toNat - 1)
      n.toNat (by omega)
    rw [Int.toNat_of_nonneg hn0] at hle
    exact hle
  have hUmem : ∃ n : ℤ, 0 ≤ n ∧ n < eaf.d ∧
      (get_fast_eaf rounding k eaf).U = P rounding k eaf n := by
    obtain ⟨i, hi, hm⟩ := min_upto_mem (P rounding k eaf) (eaf.d.toNat - 1)
    exact ⟨(i : ℤ), Int.natCast_nonneg i, by omega, hm⟩
  cases rounding with
  | up =>
    obtain ⟨hε1, hε2⟩ := epsilon_up_bounds k eaf ha hd
    refine ⟨?_, ?_, ?_, fun n => rfl, hUle, hUmem⟩
    · intro n hn0 hnd
      obtain ⟨hQ0, hQge, hQlt⟩ := Q_up_spec k eaf hε1 n
      constructor
      · exact ⟨hQ0,
          (fast_eaf_failure_iff_up k eaf ha hd n _ hn0 hnd hQ0).mpr hQge⟩
      · rintro q ⟨hq0, hfail⟩
        by_contra hcon
        push_neg at hcon
        exact absurd
          ((fast_eaf_failure_iff_up k eaf ha hd n q hn0 hnd hq0).mp hfail)
          (not_le.mpr (hQlt q hq0 hcon))
    · intro _ n
      have hQdef : Q .up k eaf n = if h .up k eaf n ≤ 0 then 0
          else (h .up k eaf n + (epsilon .up k eaf - 1)).tdiv
            (epsilon .up k eaf) := rfl
      constructor
      · intro hh0
        rw [hQdef, if_pos hh0]
      · intro hh0
        rw [hQdef, if_neg (not_le.mpr hh0),
          Int.tdiv_eq_ediv (by linarith) (by linarith)]
    · intro hcon
      cases hcon
  | down =>
    have hε1 : 1 ≤ epsilon .down k eaf := by
      have hne : epsilon .down k eaf ≠ 0 := by
        rcases hfin with hc | hc
        · cases hc
        · exact hc
      obtain ⟨hεa, hεb⟩ := epsilon_down_bounds k eaf ha hd
      omega
    refine ⟨?_, ?_, ?_, fun n => rfl, hUle, hUmem⟩
    · intro n hn0 hnd
      obtain ⟨hQ0, hQgt, hQle⟩ := Q_down_spec k eaf hε1 n
      constructor
      · exact ⟨hQ0,
          (fast_eaf_failure_iff_down k eaf ha hd n _ hn0 hnd hQ0).mpr hQgt⟩
      · rintro q ⟨hq0, hfail⟩
        by_contra hcon
        push_neg at hcon
        exact absurd
          ((fast_eaf_failure_iff_down k eaf ha hd n q hn0 hnd hq0).mp hfail)
          (not_lt.mpr (hQle q hq0 hcon))
    · intro hcon
      cases hcon
    · intro _ n
      have hQdef : Q .down k eaf n = if h .down k eaf n < 0 then 0
          else (h .down k eaf n).tdiv (epsilon .down k eaf) + 1 := rfl
      constructor
      · intro hh0
        rw [hQdef, if_pos hh0]
      · intro hh0
        rw [hQdef, if_neg (not_lt.mpr hh0),
          Int.tdiv_eq_ediv hh0 (by linarith)]

theorem Q_P_U_spec_witness :
    ((0 : ℤ) ≤ (⟨1, 0, 2⟩ : eaf_t).a ∧ (0 : ℤ) < (⟨1, 0, 2⟩ : eaf_t).d ∧
        1 ≤ 1 ∧ 1 ≤ 64 ∧ (0 : ℤ) ≤ 0 ∧ (0 : ℤ) < (⟨1, 0, 2⟩ : eaf_t).d) ∧
      IsLeast {q : ℤ | 0 ≤ q ∧
          ((⟨1, 0, 2⟩ : eaf_t).a * (0 + q * (⟨1, 0, 2⟩ : eaf_t).d) +
              (⟨1, 0, 2⟩ : eaf_t).b) / (⟨1, 0, 2⟩ : eaf_t).d ≠
            ((get_fast_eaf .up 1 ⟨1, 0, 2⟩).fast.a *
                  (0 + q * (⟨1, 0, 2⟩ : eaf_t).d) +
                (get_fast_eaf .up 1 ⟨1, 0, 2⟩).fast.b) /
              (get_fast_eaf .up 1 ⟨1, 0, 2⟩).fast.d}
        (Q .up 1 ⟨1, 0, 2⟩ 0) :=
  ⟨⟨by decide, by decide, by decide, by decide, by decide, by decide⟩,
    (Q_P_U_spec .up 1 ⟨1, 0, 2⟩ (by decide) (by decide) (by decide)
        (by decide) (Or.inl rfl)).1 0 (by decide) (by decide)⟩

set_option maxRecDepth 10000 in
/-- C8: running the fast-EAF derivation (round-down mode, Theorem 3) with
`k = 16` on the month-decomposition EAF `(5*n + 461) / 153` reproduces the
published coefficients `a' = 2141`, `b' = 197913`, divisor `65536` used in
the month/day step of `to_date_opt`, with upper bound `U = 734`; and the
fast form agrees with the direct division for every `n` in `[0, 734)`. -/
theorem get_fast_eaf_month_example :
    get_fast_eaf .down 16 ⟨5, 461, 153⟩ =
        { fast := { a := 2141, b := 197913, d := 65536 }, k := 16, U := 734 } ∧
      ∀ n : ℤ, 0 ≤ n → n < 734 →
        ((⟨5, 461, 153⟩ : eaf_t).a * n + (⟨5, 461, 153⟩ : eaf_t).b) /
            (⟨5, 461, 153⟩ : eaf_t).d =
          (2141 * n + 197913) / 65536 := by
  constructor
  · decide
  · intro n hn0 hn734
    have hu : U .down 16 ⟨5, 461, 153⟩ = 734 := by decide
    have hap : a_p .down 16 ⟨5, 461, 153⟩ = 2141 := by decide
    have hbp : b_p .down 16 ⟨5, 461, 153⟩ = 197913 := by decide
    have hε1 : (1 : ℤ) ≤ epsilon .down 16 ⟨5, 461, 153⟩ := by decide
    have hagree := fast_eaf_agrees_down 16 ⟨5, 461, 153⟩ (by decide)
      (by decide) hε1 n hn0 (by rw [hu]; exact hn734)
    rw [hap, hbp, show ((2 : ℤ) ^ 16) = 65536 from by norm_num] at hagree
    exact hagree

/-! ### The calendar data model, `src/common.hpp` / `src/eaf/limits.hpp` -/

/-- `date_t` of `src/common.hpp`: a year of the signed type `T` and
`uint32_t` month and day.  All components are modelled by `ℤ`; no validity
constraint is imposed by the type. -/
structure date_t where
  year : ℤ
  month : ℤ
  day : ℤ
  deriving DecidableEq, Repr

/-- The `operator <` of `date_t`: lexicographic on (year, month, day). -/
def date_lt (x y : date_t) : Prop :=
  x.year < y.year ∨ (x.year = y.year ∧
    (x.month < y.month ∨ (x.month = y.month ∧ x.day < y.day)))

instance (x y : date_t) : Decidable (date_lt x y) := by
  unfold date_lt
  infer_instance

/-- `std::numeric_limits<T>::max()` for the signed `W`-bit type. -/
def type_max (W : ℕ) : ℤ := 2 ^ (W - 1) - 1

/-- `std::numeric_limits<T>::min()` for the signed `W`-bit type. -/
def type_min (W : ℕ) : ℤ := -(2 ^ (W - 1))

/-- `limits<T>::rata_die_max` of `src/eaf/limits.hpp`: `(max - 3) / 4`
(truncated division). -/
def rata_die_max (W : ℕ) : ℤ := (type_max W - 3).tdiv 4

/-- `limits<T>::rata_die_min` of `src/eaf/limits.hpp`: `min / 4`
(truncated division). -/
def rata_die_min (W : ℕ) : ℤ := (type_min W).tdiv 4

/-- `limits<T>::date_max` of `src/eaf/limits.hpp`: `{max / 1461 + 1, 2, 28}`. -/
def date_max (W : ℕ) : date_t := ⟨(type_max W).tdiv 1461 + 1, 2, 28⟩

/-- `limits<T>::date_min` of `src/eaf/limits.hpp`: `{min / 1461, 3, 1}`. -/
def date_min (W : ℕ) : date_t := ⟨(type_min W).tdiv 1461, 3, 1⟩

/-- The constant `K = epoch + 146097 * s` of the optimised algorithms. -/
def K_opt (epoch s : ℤ) : ℤ := epoch + 146097 * s

/-- The constant `L = 400 * s` of the optimised algorithms. -/
def L_opt (s : ℤ) : ℤ := 400 * s

/-- `std::numeric_limits<uint_t>::max()` for the unsigned `W`-bit type. -/
def umax (W : ℕ) : ℤ := 2 ^ W - 1

/-- `limits_gregorian_opt<T, epoch, s>::rata_die_max`:
`T((max - 3) / 4) - K` with `max` the unsigned maximum. -/
def rata_die_max_opt (W : ℕ) (epoch s : ℤ) : ℤ :=
  (umax W - 3) / 4 - K_opt epoch s

/-- `limits_gregorian_opt<T, epoch, s>::rata_die_min`: `-K`. -/
def rata_die_min_opt (W : ℕ) (epoch s : ℤ) : ℤ := -K_opt epoch s

/-- `limits_gregorian_opt<T, epoch, s>::date_max`:
`{T(max / 1461) - L + 1, 2, 28}`. -/
def date_max_opt (W : ℕ) (epoch s : ℤ) : date_t :=
  ⟨umax W / 1461 - L_opt s + 1, 2, 28⟩

/-- `limits_gregorian_opt<T, epoch, s>::date_min`: `{-L, 3, 1}`. -/
def date_min_opt (W : ℕ) (epoch s : ℤ) : date_t := ⟨-L_opt s, 3, 1⟩

/-! ### `eaf::quotient` / `eaf::remainder` on a `W`-bit signed type

Inside the calendar conversions the arguments of `quotient` and `remainder`
are values of the `W`-bit type `T`, and the intermediate expressions
`n - (d - 1)` and `n - d * quotient(n, d)` are themselves computed in `T`,
so they wrap on overflow; `remainder` then narrows its result to
`uint32_t`.  `quotient_w`/`remainder_w` model this faithfully. -/

def quotient_w (W : ℕ) (n d : ℤ) : ℤ :=
  if 0 ≤ n then n.tdiv d else (wrapS W (n - (d - 1))).tdiv d

def remainder_w (W : ℕ) (n d : ℤ) : ℤ :=
  if 0 ≤ n then wrapU 32 (n.tmod d)
  else wrapU 32 (wrapS W (n - wrapS W (d * quotient_w W n d)))

/-- In-range arguments make `quotient_w` the Euclidean quotient: the
adjustment `n - (d - 1)` must not underflow the signed type. -/
theorem quotient_w_eq (W : ℕ) (n d : ℤ) (hW : 1 ≤ W) (hd : 0 < d)
    (hlow : -(2 ^ (W - 1)) + (d - 1) ≤ n) (hhigh : n < 2 ^ (W - 1)) :
    quotient_w W n d = n / d := by
  unfold quotient_w
  by_cases hn : 0 ≤ n
  · rw [if_pos hn, Int.tdiv_eq_ediv hn hd.le]
  · rw [if_neg hn,
      wrapS_eq_self hW (by omega) (by omega)]
    push_neg at hn
    have hq := quotient_eq_ediv n hd
    unfold quotient at hq
    rw [if_neg (not_le.mpr hn)] at hq
    exact hq

/-- In-range arguments make `remainder_w` the Euclidean remainder. -/
theorem remainder_w_eq (W : ℕ) (n d : ℤ) (hW : 1 ≤ W) (hd : 0 < d)
    (hd31 : d ≤ 2 ^ (W - 1)) (hd32 : d ≤ 2 ^ 32)
    (hlow : -(2 ^ (W - 1)) + (d - 1) ≤ n) (hhigh : n < 2 ^ (W - 1)) :
    remainder_w W n d = n % d := by
  have hr0 : 0 ≤ n % d := Int.emod_nonneg n hd.ne'
  have hrd : n % d < d := Int.emod_lt_of_pos n hd
  unfold remainder_w
  by_cases hn : 0 ≤ n
  · rw [if_pos hn, Int.tmod_eq_emod hn hd.le]
    exact wrapU_eq_self hr0 (by omega)
  · rw [if_neg hn, quotient_w_eq W n d hW hd hlow hhigh]
    push_neg at hn
    have hediv := Int.ediv_add_emod n d
    -- d * (n / d) lies in (n - d, n], hence in the signed range
    have hin : wrapS W (d * (n / d)) = d * (n / d) :=
      wrapS_eq_self hW (by omega) (by omega)
    rw [hin]
    have hout : wrapS W (n - d * (n / d)) = n - d * (n / d) :=
      wrapS_eq_self hW (by omega) (by omega)
    rw [hout, show n - d * (n / d) = n % d from by omega]
    exact wrapU_eq_self hr0 (by omega)

/-- C4 counterexample: at `n = INT32_MIN`, `d = 3` the adjustment
`n - (d - 1)` inside `eaf::quotient` underflows `int32_t` (undefined
behaviour, concretized as two's-complement wraparound): the program
returns quotient `715827882` and remainder `2`, and
`n = quotient*d + remainder` fails. -/
theorem quotient_remainder_underflow_counterexample :
    type_min 32 ≤ -2147483648 ∧ (0 : ℤ) < 3 ∧ (3 : ℤ) ≤ 2 ^ 31 - 1 ∧
      quotient_w 32 (-2147483648) 3 = 715827882 ∧
      remainder_w 32 (-2147483648) 3 = 2 ∧
      (-2147483648 : ℤ) ≠
        quotient_w 32 (-2147483648) 3 * 3 +
          remainder_w 32 (-2147483648) 3 :=
  ⟨by decide, by decide, by decide, by decide, by decide, by decide⟩

/-- C4 (amended): on the `W`-bit instantiation type, for every divisor
`0 < d ≤ 2^31 - 1` (the `int32_t` divisor type) and every representable
dividend `n` above the low band where the adjustment `n - (d - 1)`
underflows the type (the unrestricted statement fails there — see the
counterexample), `eaf::quotient` and `eaf::remainder` return the Euclidean
quotient and remainder: `n = quotient(n,d)*d + remainder(n,d)` with
`0 ≤ remainder(n,d) < d`, for all signs of `n` (not the truncating
division, which would leave a negative remainder for `n < 0`). -/
theorem quotient_remainder_euclidean (W : ℕ) (n d : ℤ)
    (hW : W = 32 ∨ W = 64) (hd : 0 < d) (hd31 : d ≤ 2 ^ 31 - 1)
    (hlow : -(2 ^ (W - 1)) + (d - 1) ≤ n) (hhigh : n < 2 ^ (W - 1)) :
    n = quotient_w W n d * d + remainder_w W n d ∧
      0 ≤ remainder_w W n d ∧ remainder_w W n d < d := by
  have hW1 : 1 ≤ W := by rcases hW with rfl | rfl <;> norm_num
  have hP : (2147483648 : ℤ) ≤ 2 ^ (W - 1) := by
    rcases hW with rfl | rfl <;> norm_num
  rw [quotient_w_eq W n d hW1 hd hlow hhigh,
    remainder_w_eq W n d hW1 hd (by omega) (by omega) hlow hhigh]
  refine ⟨?_, Int.emod_nonneg n hd.ne', Int.emod_lt_of_pos n hd⟩
  have := Int.ediv_add_emod n d
  linarith

theorem quotient_remainder_euclidean_witness :
    (-7 : ℤ) = quotient_w 32 (-7) 3 * 3 + remainder_w 32 (-7) 3 ∧
      0 ≤ remainder_w 32 (-7) 3 ∧ remainder_w 32 (-7) 3 < 3 :=
  quotient_remainder_euclidean 32 (-7) 3 (Or.inl rfl) (by decide)
    (by decide) (by decide) (by decide)

/-! ### Exact model of the Gregorian conversions, `src/eaf/gregorian.hpp`

Each `const` line of the C++ functions becomes one definition.  The signed
`T` arithmetic is exact here (`to_date_math` / `to_rata_die_math` are the
mathematical functions the C++ code implements); the faithful wrapping
models below are reduced to these on the documented domains.
`eaf::quotient`/`eaf::remainder` are Euclidean division (`quotient_eq_ediv`,
`remainder_eq_emod`), so `/` and `%` appear directly; the `uint32_t`
intermediates are division results of non-negative values.  The names of
the locals of `to_rata_die` get an `_r` suffix to disambiguate them from
the locals of `to_date`. -/

namespace gregorian

def N_1 (N : ℤ) : ℤ := 4 * N + 3
def C (N : ℤ) : ℤ := N_1 N / 146097
def N_C (N : ℤ) : ℤ := N_1 N % 146097 / 4
def N_2 (N : ℤ) : ℤ := 4 * N_C N + 3
def Z (N : ℤ) : ℤ := N_2 N / 1461
def N_Y (N : ℤ) : ℤ := N_2 N % 1461 / 4
def Y (N : ℤ) : ℤ := 100 * C N + Z N
def N_3 (N : ℤ) : ℤ := 5 * N_Y N + 461
def M (N : ℤ) : ℤ := N_3 N / 153
def D (N : ℤ) : ℤ := N_3 N % 153 / 5
def J (N : ℤ) : ℤ := if 13 ≤ M N then 1 else 0

/-- The mathematical function computed by `gregorian::to_date`. -/
def to_date_math (N : ℤ) : date_t := ⟨Y N + J N, M N - 12 * J N, D N + 1⟩

def J_r (M_G : ℤ) : ℤ := if M_G ≤ 2 then 1 else 0
def Y_r (Y_G M_G : ℤ) : ℤ := Y_G - J_r M_G
def M_r (M_G : ℤ) : ℤ := M_G + 12 * J_r M_G
def C_r (Y_G M_G : ℤ) : ℤ := Y_r Y_G M_G / 100
def y_star (Y_G M_G : ℤ) : ℤ :=
  1461 * Y_r Y_G M_G / 4 - C_r Y_G M_G + C_r Y_G M_G / 4
def m_star (M_G : ℤ) : ℤ := (153 * M_r M_G - 457) / 5

/-- The mathematical function computed by `gregorian::to_rata_die`. -/
def to_rata_die_math (Y_G M_G D_G : ℤ) : ℤ :=
  y_star Y_G M_G + m_star M_G + (D_G - 1)

theorem N_Y_bounds (N : ℤ) : 0 ≤ N_Y N ∧ N_Y N ≤ 365 := by
  unfold N_Y N_2 N_C N_1
  omega

theorem M_bounds (N : ℤ) : 3 ≤ M N ∧ M N ≤ 14 := by
  have := N_Y_bounds N
  unfold M N_3
  omega

theorem J_r_map (N : ℤ) : J_r (M N - 12 * J N) = J N := by
  have hM := M_bounds N
  by_cases h13 : 13 ≤ M N
  · unfold J_r J
    rw [if_pos h13, if_pos (by omega)]
  · unfold J_r J
    rw [if_neg h13, if_neg (by omega)]

/-- The Gregorian round trip, as an identity of the exact models: it holds
for every integer rata die. -/
theorem round_trip_math (N : ℤ) :
    to_rata_die_math (to_date_math N).year (to_date_math N).month
      (to_date_math N).day = N := by
  have hM := M_bounds N
  have hNY := N_Y_bounds N
  have hJ := J_r_map N
  show to_rata_die_math (Y N + J N) (M N - 12 * J N) (D N + 1) = N
  have hYr : Y_r (Y N + J N) (M N - 12 * J N) = Y N := by
    unfold Y_r
    rw [hJ]
    ring
  have hMr : M_r (M N - 12 * J N) = M N := by
    unfold M_r
    rw [hJ]
    ring
  unfold to_rata_die_math y_star C_r m_star
  rw [hYr, hMr]
  -- the month/day step inverts the month EAF
  have hmd : (153 * M N - 457) / 5 + D N = N_Y N := by
    unfold M D N_3
    omega
  -- the year-within-century digit keeps the century quotient intact
  have hB1 : Y N / 100 = C N := by
    have hZb : 0 ≤ Z N ∧ Z N ≤ 99 := by
      unfold Z N_2 N_C N_1
      omega
    unfold Y
    omega
  have hB3 : 1461 * Y N / 4 = 36525 * C N + 1461 * Z N / 4 := by
    unfold Y
    omega
  rw [hB3, hB1]
  have hCdef : C N = (4 * N + 3) / 146097 := rfl
  have hZdef : Z N = (4 * ((4 * N + 3) % 146097 / 4) + 3) / 1461 := rfl
  have hNYdef : N_Y N = (4 * ((4 * N + 3) % 146097 / 4) + 3) % 1461 / 4 := rfl
  -- the two modular facts that close the century/year cascade:
  -- the remainder of each 4x+3 division is congruent to 3 minus its quotient
  have hf5 : 4 ∣ ((4 * N + 3) % 146097 + (4 * N + 3) / 146097 - 3) := by
    omega
  have hf6 : 4 ∣ ((4 * ((4 * N + 3) % 146097 / 4) + 3) % 1461 +
      (4 * ((4 * N + 3) % 146097 / 4) + 3) / 1461 - 3) := by
    omega
  omega

end gregorian

/-! ### Exact model of the Julian conversions, `src/eaf/julian.hpp` -/

namespace julian

def N_1 (N : ℤ) : ℤ := 4 * N + 3
def Y (N : ℤ) : ℤ := N_1 N / 1461
def N_Y (N : ℤ) : ℤ := N_1 N % 1461 / 4
def N_2 (N : ℤ) : ℤ := 5 * N_Y N + 461
def M (N : ℤ) : ℤ := N_2 N / 153
def D (N : ℤ) : ℤ := N_2 N % 153 / 5
def J (N : ℤ) : ℤ := if 13 ≤ M N then 1 else 0

/-- The mathematical function computed by `julian::to_date`. -/
def to_date_math (N : ℤ) : date_t := ⟨Y N + J N, M N - 12 * J N, D N + 1⟩

def J_r (M_J : ℤ) : ℤ := if M_J ≤ 2 then 1 else 0
def Y_r (Y_J M_J : ℤ) : ℤ := Y_J - J_r M_J
def M_r (M_J : ℤ) : ℤ := M_J + 12 * J_r M_J
def y_star (Y_J M_J : ℤ) : ℤ := 1461 * Y_r Y_J M_J / 4
def m_star (M_J : ℤ) : ℤ := (153 * M_r M_J - 457) / 5

/-- The mathematical function computed by `julian::to_rata_die`. -/
def to_rata_die_math (Y_J M_J D_J : ℤ) : ℤ :=
  y_star Y_J M_J + m_star M_J + (D_J - 1)

theorem N_Y_bounds_julian (N : ℤ) : 0 ≤ N_Y N ∧ N_Y N ≤ 365 := by
  unfold N_Y N_1
  omega

theorem M_bounds_julian (N : ℤ) : 3 ≤ M N ∧ M N ≤ 14 := by
  have := N_Y_bounds_julian N
  unfold M N_2
  omega

theorem J_r_map_julian (N : ℤ) : J_r (M N - 12 * J N) = J N := by
  have hM := M_bounds_julian N
  by_cases h13 : 13 ≤ M N
  · unfold J_r J
    rw [if_pos h13, if_pos (by omega)]
  · unfold J_r J
    rw [if_neg h13, if_neg (by omega)]

/-- The Julian round trip, as an identity of the exact models: it holds
for every integer rata die. -/
theorem round_trip_math_julian (N : ℤ) :
    to_rata_die_math (to_date_math N).year (to_date_math N).month
      (to_date_math N).day = N := by
  have hM := M_bounds_julian N
  have hNY := N_Y_bounds_julian N
  have hJ := J_r_map_julian N
  show to_rata_die_math (Y N + J N) (M N - 12 * J N) (D N + 1) = N
  have hYr : Y_r (Y N + J N) (M N - 12 * J N) = Y N := by
    unfold Y_r
    rw [hJ]
    ring
  have hMr : M_r (M N - 12 * J N) = M N := by
    unfold M_r
    rw [hJ]
    ring
  unfold to_rata_die_math y_star m_star
  rw [hYr, hMr]
  unfold Y M D N_2 N_Y N_1
  have hf : 4 ∣ ((4 * N + 3) % 1461 + (4 * N + 3) / 1461 - 3) := by
    omega
  omega

end julian

/-! ### Faithful wrapping models of the conversions

`to_date W` / `to_rata_die W` model the C++ functions on the `W`-bit type
`T` (`W` = 32 or 64, `EAF_SIZE`): each arithmetic expression evaluated in
`T` is reduced by `wrapS W` (several consecutive `T` operations of one
statement are wrapped once, which is the same composite), each expression
evaluated in `uint32_t` that is not structurally below `2^32` is reduced by
`wrapU 32`, and `eaf::quotient`/`eaf::remainder` are `quotient_w`/
`remainder_w`.  Signed overflow in C++ is undefined behaviour; wrapping is
the standard concretization (what common hardware does).  The `_checked`
variants pair the result with the out-of-bounds warning flag that the C++
functions print to `std::cout` before computing unconditionally. -/

namespace gregorian

def N_1_w (W : ℕ) (N : ℤ) : ℤ := wrapS W (4 * N + 3)
def C_w (W : ℕ) (N : ℤ) : ℤ := quotient_w W (N_1_w W N) 146097
def N_C_w (W : ℕ) (N : ℤ) : ℤ := remainder_w W (N_1_w W N) 146097 / 4
def N_2_w (W : ℕ) (N : ℤ) : ℤ := 4 * N_C_w W N + 3
def Z_w (W : ℕ) (N : ℤ) : ℤ := N_2_w W N / 1461
def N_Y_w (W : ℕ) (N : ℤ) : ℤ := N_2_w W N % 1461 / 4
def Y_w (W : ℕ) (N : ℤ) : ℤ := wrapS W (100 * C_w W N + Z_w W N)
def N_3_w (W : ℕ) (N : ℤ) : ℤ := 5 * N_Y_w W N + 461
def M_w (W : ℕ) (N : ℤ) : ℤ := N_3_w W N / 153
def D_w (W : ℕ) (N : ℤ) : ℤ := N_3_w W N % 153 / 5
def J_w (W : ℕ) (N : ℤ) : ℤ := if 13 ≤ M_w W N then 1 else 0

/-- `gregorian::to_date` on the `W`-bit type. -/
def to_date (W : ℕ) (N : ℤ) : date_t :=
  ⟨wrapS W (Y_w W N + J_w W N), M_w W N - 12 * J_w W N, D_w W N + 1⟩

def Y_r_w (W : ℕ) (Y_G M_G : ℤ) : ℤ := wrapS W (Y_G - J_r M_G)
def M_r_w (M_G : ℤ) : ℤ := wrapU 32 (M_G + 12 * J_r M_G)
def D_r_w (D_G : ℤ) : ℤ := wrapU 32 (D_G - 1)
def C_r_w (W : ℕ) (Y_G M_G : ℤ) : ℤ := quotient_w W (Y_r_w W Y_G M_G) 100
def y_star_w (W : ℕ) (Y_G M_G : ℤ) : ℤ :=
  wrapS W (quotient_w W (wrapS W (1461 * Y_r_w W Y_G M_G)) 4 -
    C_r_w W Y_G M_G + quotient_w W (C_r_w W Y_G M_G) 4)
def m_star_w (M_G : ℤ) : ℤ := wrapU 32 (153 * M_r_w M_G - 457) / 5

/-- `gregorian::to_rata_die` on the `W`-bit type. -/
def to_rata_die (W : ℕ) (Y_G M_G D_G : ℤ) : ℤ :=
  wrapS W (y_star_w W Y_G M_G + m_star_w M_G + D_r_w D_G)

def to_date_checked (W : ℕ) (N : ℤ) : Bool × date_t :=
  (decide (N < rata_die_min W ∨ rata_die_max W < N), to_date W N)

def to_rata_die_checked (W : ℕ) (Y_G M_G D_G : ℤ) : Bool × ℤ :=
  (decide (date_lt ⟨Y_G, M_G, D_G⟩ (date_min W) ∨
      date_lt (date_max W) ⟨Y_G, M_G, D_G⟩),
    to_rata_die W Y_G M_G D_G)

/-- On the documented date domain (with a valid month and day),
`gregorian::to_rata_die` computes the exact mathematical rata die. -/
theorem to_rata_die_w_eq (W : ℕ) (Y_G M_G D_G : ℤ) (hW : W = 32 ∨ W = 64)
    (hM : 1 ≤ M_G ∧ M_G ≤ 12) (hD : 1 ≤ D_G ∧ D_G ≤ 31)
    (hdmin : ¬ date_lt ⟨Y_G, M_G, D_G⟩ (date_min W))
    (hdmax : ¬ date_lt (date_max W) ⟨Y_G, M_G, D_G⟩) :
    to_rata_die W Y_G M_G D_G = to_rata_die_math Y_G M_G D_G := by
  have hW1 : 1 ≤ W := by rcases hW with rfl | rfl <;> norm_num
  have hP : (2147483648 : ℤ) ≤ 2 ^ (W - 1) := by
    rcases hW with rfl | rfl <;> norm_num
  have hPm : 3 ≤ (2 : ℤ) ^ (W - 1) % 1461 := by
    rcases hW with rfl | rfl <;> decide
  have ht1 : (-(2 : ℤ) ^ (W - 1)).tdiv 1461 = -(2 ^ (W - 1) / 1461) := by
    rw [show (-(2 : ℤ) ^ (W - 1)) = -(2 ^ (W - 1)) from by ring, Int.neg_tdiv,
      Int.tdiv_eq_ediv (by positivity) (by norm_num)]
  have ht2 : ((2 : ℤ) ^ (W - 1) - 1).tdiv 1461 = (2 ^ (W - 1) - 1) / 1461 :=
    Int.tdiv_eq_ediv (by omega) (by norm_num)
  unfold date_lt at hdmin hdmax
  unfold date_min type_min at hdmin
  unfold date_max type_max at hdmax
  dsimp only at hdmin hdmax
  rw [show -((2 : ℤ) ^ (W - 1)) = -(2 : ℤ) ^ (W - 1) from by ring,
    ht1] at hdmin
  rw [ht2] at hdmax
  -- bounds on the computational year
  have hJr : J_r M_G = (if M_G ≤ 2 then 1 else 0) := rfl
  have hJb : (M_G ≤ 2 ∧ J_r M_G = 1) ∨ (2 < M_G ∧ J_r M_G = 0) := by
    rw [hJr]
    split_ifs with hsplit
    · exact Or.inl ⟨hsplit, rfl⟩
    · exact Or.inr ⟨by omega, rfl⟩
  have hYrb : -(2 ^ (W - 1) / 1461) ≤ Y_G - J_r M_G ∧
      Y_G - J_r M_G ≤ (2 ^ (W - 1) - 1) / 1461 := by omega
  have eY : Y_r_w W Y_G M_G = Y_r Y_G M_G := by
    unfold Y_r_w Y_r
    exact wrapS_eq_self hW1 (by omega) (by omega)
  have hYr_def : Y_r Y_G M_G = Y_G - J_r M_G := rfl
  have e1461 : wrapS W (1461 * Y_r Y_G M_G) = 1461 * Y_r Y_G M_G := by
    rw [hYr_def]
    exact wrapS_eq_self hW1 (by omega) (by omega)
  have eq4 : quotient_w W (1461 * Y_r Y_G M_G) 4 =
      1461 * Y_r Y_G M_G / 4 := by
    rw [hYr_def]
    exact quotient_w_eq W _ _ hW1 (by norm_num) (by omega) (by omega)
  have eC : C_r_w W Y_G M_G = C_r Y_G M_G := by
    unfold C_r_w C_r
    rw [eY, hYr_def]
    exact quotient_w_eq W _ _ hW1 (by norm_num) (by omega) (by omega)
  have hCrb : -(2 ^ (W - 1) / 1461) / 100 - 1 ≤ C_r Y_G M_G ∧
      C_r Y_G M_G ≤ (2 ^ (W - 1) - 1) / 1461 / 100 + 1 := by
    unfold C_r
    rw [hYr_def]
    omega
  have eqC4 : quotient_w W (C_r Y_G M_G) 4 = C_r Y_G M_G / 4 :=
    quotient_w_eq W _ _ hW1 (by norm_num) (by omega) (by omega)
  have ey : y_star_w W Y_G M_G = y_star Y_G M_G := by
    unfold y_star_w y_star
    rw [eY, e1461, eq4, eC, eqC4, hYr_def]
    exact wrapS_eq_self hW1 (by omega) (by omega)
  have eMr : M_r_w M_G = M_r M_G := by
    unfold M_r_w M_r
    exact wrapU_eq_self (by omega) (by omega)
  have hMr_def : M_r M_G = M_G + 12 * J_r M_G := rfl
  have em : m_star_w M_G = m_star M_G := by
    unfold m_star_w m_star
    rw [eMr]
    rw [wrapU_eq_self (by omega) (by omega)]
  have eD : D_r_w D_G = D_G - 1 := by
    unfold D_r_w
    exact wrapU_eq_self (by omega) (by omega)
  have hyb : -(2 ^ (W - 1)) / 4 - 2 ^ (W - 1) / 1461 - 3 ≤ y_star Y_G M_G ∧
      y_star Y_G M_G ≤ 2 ^ (W - 1) / 4 + 2 ^ (W - 1) / 1461 + 3 := by
    unfold y_star C_r
    rw [hYr_def]
    omega
  have hmb : 0 ≤ m_star M_G ∧ m_star M_G ≤ 400 := by
    unfold m_star
    rw [hMr_def]
    omega
  unfold to_rata_die to_rata_die_math
  rw [ey, em, eD, wrapS_eq_self hW1 (by omega) (by omega)]

end gregorian

namespace julian

def N_1_w (W : ℕ) (N : ℤ) : ℤ := wrapS W (4 * N + 3)
def Y_w (W : ℕ) (N : ℤ) : ℤ := quotient_w W (N_1_w W N) 1461
def N_Y_w (W : ℕ) (N : ℤ) : ℤ := remainder_w W (N_1_w W N) 1461 / 4
def N_2_w (W : ℕ) (N : ℤ) : ℤ := 5 * N_Y_w W N + 461
def M_w (W : ℕ) (N : ℤ) : ℤ := N_2_w W N / 153
def D_w (W : ℕ) (N : ℤ) : ℤ := N_2_w W N % 153 / 5
def J_w (W : ℕ) (N : ℤ) : ℤ := if 13 ≤ M_w W N then 1 else 0

/-- `julian::to_date` on the `W`-bit type. -/
def to_date (W : ℕ) (N : ℤ) : date_t :=
  ⟨wrapS W (Y_w W N + J_w W N), M_w W N - 12 * J_w W N, D_w W N + 1⟩

def Y_r_w (W : ℕ) (Y_J M_J : ℤ) : ℤ := wrapS W (Y_J - J_r M_J)
def M_r_w (M_J : ℤ) : ℤ := wrapU 32 (M_J + 12 * J_r M_J)
def D_r_w (D_J : ℤ) : ℤ := wrapU 32 (D_J - 1)
def y_star_w (W : ℕ) (Y_J M_J : ℤ) : ℤ :=
  quotient_w W (wrapS W (1461 * Y_r_w W Y_J M_J)) 4
def m_star_w (M_J : ℤ) : ℤ := wrapU 32 (153 * M_r_w M_J - 457) / 5

/-- `julian::to_rata_die` on the `W`-bit type. -/
def to_rata_die (W : ℕ) (Y_J M_J D_J : ℤ) : ℤ :=
  wrapS W (y_star_w W Y_J M_J + m_star_w M_J + D_r_w D_J)


/-- On the documented rata-die domain, minus the low band where the
Euclidean-adjustment inside `quotient` underflows the signed type,
`julian::to_date` computes the exact mathematical date. -/
theorem to_date_w_eq_julian (W : ℕ) (N : ℤ) (hW : W = 32 ∨ W = 64)
    (h1 : rata_die_min W ≤ N) (h2 : N ≤ rata_die_max W)
    (hband : type_min W + 1460 ≤ 4 * N + 3) :
    to_date W N = to_date_math N := by
  have hW1 : 1 ≤ W := by rcases hW with rfl | rfl <;> norm_num
  have hP : (2147483648 : ℤ) ≤ 2 ^ (W - 1) := by
    rcases hW with rfl | rfl <;> norm_num
  have hrdmax : rata_die_max W = (2 ^ (W - 1) - 4) / 4 := by
    unfold rata_die_max type_max
    rw [show (2 : ℤ) ^ (W - 1) - 1 - 3 = 2 ^ (W - 1) - 4 from by ring,
      Int.tdiv_eq_ediv (by omega) (by norm_num)]
  have htm : type_min W = -2 ^ (W - 1) := by
    unfold type_min
    ring
  rw [htm] at hband
  rw [hrdmax] at h2
  have e1 : N_1_w W N = N_1 N := by
    unfold N_1_w N_1
    exact wrapS_eq_self hW1 (by omega) (by omega)
  have e2 : Y_w W N = Y N := by
    unfold Y_w Y
    rw [e1]
    unfold N_1
    exact quotient_w_eq W _ _ hW1 (by norm_num) (by omega) (by omega)
  have e3 : N_Y_w W N = N_Y N := by
    unfold N_Y_w N_Y
    rw [e1]
    unfold N_1
    rw [remainder_w_eq W _ _ hW1 (by norm_num) (by omega) (by omega)
      (by omega) (by omega)]
  have e4 : N_2_w W N = N_2 N := by
    unfold N_2_w N_2
    rw [e3]
  have e5 : M_w W N = M N := by
    unfold M_w M
    rw [e4]
  have e6 : D_w W N = D N := by
    unfold D_w D
    rw [e4]
  have e7 : J_w W N = J N := by
    unfold J_w J
    rw [e5]
  have hJb : 0 ≤ J N ∧ J N ≤ 1 := by
    unfold J
    split_ifs <;> omega
  have hYb : -2 ^ (W - 1) / 1461 - 1 ≤ Y N ∧ Y N ≤ 2 ^ (W - 1) / 1461 + 1 := by
    unfold Y N_1
    omega
  unfold to_date to_date_math
  rw [e2, e5, e6, e7, wrapS_eq_self hW1 (by omega) (by omega)]

/-- On the documented date domain (with a valid month and day),
`julian::to_rata_die` computes the exact mathematical rata die. -/
theorem to_rata_die_w_eq_julian (W : ℕ) (Y_J M_J D_J : ℤ) (hW : W = 32 ∨ W = 64)
    (hM : 1 ≤ M_J ∧ M_J ≤ 12) (hD : 1 ≤ D_J ∧ D_J ≤ 31)
    (hdmin : ¬ date_lt ⟨Y_J, M_J, D_J⟩ (date_min W))
    (hdmax : ¬ date_lt (date_max W) ⟨Y_J, M_J, D_J⟩) :
    to_rata_die W Y_J M_J D_J = to_rata_die_math Y_J M_J D_J := by
  have hW1 : 1 ≤ W := by rcases hW with rfl | rfl <;> norm_num
  have hP : (2147483648 : ℤ) ≤ 2 ^ (W - 1) := by
    rcases hW with rfl | rfl <;> norm_num
  have hPm : 3 ≤ (2 : ℤ) ^ (W - 1) % 1461 := by
    rcases hW with rfl | rfl <;> decide
  have ht1 : (-(2 : ℤ) ^ (W - 1)).tdiv 1461 = -(2 ^ (W - 1) / 1461) := by
    rw [show (-(2 : ℤ) ^ (W - 1)) = -(2 ^ (W - 1)) from by ring, Int.neg_tdiv,
      Int.tdiv_eq_ediv (by positivity) (by norm_num)]
  have ht2 : ((2 : ℤ) ^ (W - 1) - 1).tdiv 1461 = (2 ^ (W - 1) - 1) / 1461 :=
    Int.tdiv_eq_ediv (by omega) (by norm_num)
  unfold date_lt at hdmin hdmax
  unfold date_min type_min at hdmin
  unfold date_max type_max at hdmax
  dsimp only at hdmin hdmax
  rw [show -((2 : ℤ) ^ (W - 1)) = -(2 : ℤ) ^ (W - 1) from by ring,
    ht1] at hdmin
  rw [ht2] at hdmax
  have hJb : (M_J ≤ 2 ∧ J_r M_J = 1) ∨ (2 < M_J ∧ J_r M_J = 0) := by
    rw [show J_r M_J = (if M_J ≤ 2 then 1 else 0) from rfl]
    split_ifs with hsplit
    · exact Or.inl ⟨hsplit, rfl⟩
    · exact Or.inr ⟨by omega, rfl⟩
  have hYrb : -(2 ^ (W - 1) / 1461) ≤ Y_J - J_r M_J ∧
      Y_J - J_r M_J ≤ (2 ^ (W - 1) - 1) / 1461 := by omega
  have eY : Y_r_w W Y_J M_J = Y_r Y_J M_J := by
    unfold Y_r_w Y_r
    exact wrapS_eq_self hW1 (by omega) (by omega)
  have hYr_def : Y_r Y_J M_J = Y_J - J_r M_J := rfl
  have e1461 : wrapS W (1461 * Y_r Y_J M_J) = 1461 * Y_r Y_J M_J := by
    rw [hYr_def]
    exact wrapS_eq_self hW1 (by omega) (by omega)
  have ey : y_star_w W Y_J M_J = y_star Y_J M_J := by
    unfold y_star_w y_star
    rw [eY, e1461, hYr_def]
    exact quotient_w_eq W _ _ hW1 (by norm_num) (by omega) (by omega)
  have eMr : M_r_w M_J = M_r M_J := by
    unfold M_r_w M_r
    exact wrapU_eq_self (by omega) (by omega)
  have hMr_def : M_r M_J = M_J + 12 * J_r M_J := rfl
  have em : m_star_w M_J = m_star M_J := by
    unfold m_star_w m_star
    rw [eMr]
    rw [wrapU_eq_self (by omega) (by omega)]
  have eD : D_r_w D_J = D_J - 1 := by
    unfold D_r_w
    exact wrapU_eq_self (by omega) (by omega)
  have hyb : -(2 ^ (W - 1)) / 4 - 3 ≤ y_star Y_J M_J ∧
      y_star Y_J M_J ≤ 2 ^ (W - 1) / 4 + 3 := by
    unfold y_star
    rw [hYr_def]
    omega
  have hmb : 0 ≤ m_star M_J ∧ m_star M_J ≤ 400 := by
    unfold m_star
    rw [hMr_def]
    omega
  unfold to_rata_die to_rata_die_math
  rw [ey, em, eD, wrapS_eq_self hW1 (by omega) (by omega)]

end julian

namespace gregorian

/-- On the documented rata-die domain, minus the low band where the
Euclidean-adjustment inside `quotient` underflows the signed type,
`gregorian::to_date` computes the exact mathematical date. -/
theorem to_date_w_eq (W : ℕ) (N : ℤ) (hW : W = 32 ∨ W = 64)
    (h1 : rata_die_min W ≤ N) (h2 : N ≤ rata_die_max W)
    (hband : type_min W + 146096 ≤ 4 * N + 3) :
    to_date W N = to_date_math N := by
  have hW1 : 1 ≤ W := by rcases hW with rfl | rfl <;> norm_num
  have hP : (2147483648 : ℤ) ≤ 2 ^ (W - 1) := by
    rcases hW with rfl | rfl <;> norm_num
  have hrdmax : rata_die_max W = (2 ^ (W - 1) - 4) / 4 := by
    unfold rata_die_max type_max
    rw [show (2 : ℤ) ^ (W - 1) - 1 - 3 = 2 ^ (W - 1) - 4 from by ring,
      Int.tdiv_eq_ediv (by omega) (by norm_num)]
  have htm : type_min W = -2 ^ (W - 1) := by
    unfold type_min
    ring
  rw [htm] at hband
  rw [hrdmax] at h2
  have hN1b : -(2 : ℤ) ^ (W - 1) + 146093 ≤ 4 * N + 3 ∧
      4 * N + 3 ≤ 2 ^ (W - 1) - 1 := by omega
  have e1 : N_1_w W N = N_1 N := by
    unfold N_1_w N_1
    exact wrapS_eq_self hW1 (by omega) (by omega)
  have e2 : C_w W N = C N := by
    unfold C_w C
    rw [e1]
    unfold N_1
    exact quotient_w_eq W _ _ hW1 (by norm_num) (by omega) (by omega)
  have e3 : N_C_w W N = N_C N := by
    unfold N_C_w N_C
    rw [e1]
    unfold N_1
    rw [remainder_w_eq W _ _ hW1 (by norm_num) (by omega) (by omega)
      (by omega) (by omega)]
  have e4 : N_2_w W N = N_2 N := by
    unfold N_2_w N_2
    rw [e3]
  have e5 : Z_w W N = Z N := by
    unfold Z_w Z
    rw [e4]
  have e6 : N_Y_w W N = N_Y N := by
    unfold N_Y_w N_Y
    rw [e4]
  have hCb : -2 ^ (W - 1) / 146097 - 1 ≤ C N ∧
      C N ≤ 2 ^ (W - 1) / 146097 + 1 := by
    unfold C N_1
    omega
  have hZb : 0 ≤ Z N ∧ Z N ≤ 99 := by
    unfold Z N_2 N_C N_1
    omega
  have e7 : Y_w W N = Y N := by
    unfold Y_w Y
    rw [e2, e5]
    exact wrapS_eq_self hW1 (by omega) (by omega)
  have e8 : N_3_w W N = N_3 N := by
    unfold N_3_w N_3
    rw [e6]
  have e9 : M_w W N = M N := by
    unfold M_w M
    rw [e8]
  have e10 : D_w W N = D N := by
    unfold D_w D
    rw [e8]
  have e11 : J_w W N = J N := by
    unfold J_w J
    rw [e9]
  have hJb : 0 ≤ J N ∧ J N ≤ 1 := by
    unfold J
    split_ifs <;> omega
  have hYb : -2 ^ (W - 1) / 146097 * 100 - 101 ≤ Y N ∧
      Y N ≤ 2 ^ (W - 1) / 146097 * 100 + 200 := by
    unfold Y
    omega
  unfold to_date to_date_math
  rw [e7, e9, e10, e11, wrapS_eq_self hW1 (by omega) (by omega)]

end gregorian

theorem wrapS_wrapU (W : ℕ) (x : ℤ) : wrapS W (wrapU W x) = wrapS W x := by
  unfold wrapS wrapU
  rw [Int.add_emod, Int.emod_emod_of_dvd _ (dvd_refl _), ← Int.add_emod]

/-- The magic multiply-shift of `to_date_opt`: since
`2939745 * 1461 = 2^32 + 149`, for `0 <= x <= 146099` the 32-bit shift
recovers the quotient by `1461` and the scaled remainder recovers the
remainder. -/
theorem magic_year (x : ℤ) (h0 : 0 ≤ x) (hx : x ≤ 146099) :
    2939745 * x / 4294967296 = x / 1461 ∧
    2939745 * x % 4294967296 / 2939745 / 4 = x % 1461 / 4 := by
  have hq := Int.ediv_add_emod x 1461
  have hr0 : 0 ≤ x % 1461 := Int.emod_nonneg x (by norm_num)
  have hr1 : x % 1461 < 1461 := Int.emod_lt_of_pos x (by norm_num)
  have hq0 : 0 ≤ x / 1461 := Int.ediv_nonneg h0 (by norm_num)
  have hq99 : x / 1461 ≤ 99 := by omega
  have hkey : 2939745 * x =
      (149 * (x / 1461) + 2939745 * (x % 1461)) + x / 1461 * 4294967296 := by
    linear_combination 2939745 * hq.symm
  have hw0 : 0 ≤ 149 * (x / 1461) + 2939745 * (x % 1461) := by omega
  have hw1 : 149 * (x / 1461) + 2939745 * (x % 1461) < 4294967296 := by omega
  constructor
  · rw [hkey, Int.add_mul_ediv_right _ _ (by norm_num : (4294967296:ℤ) ≠ 0),
      Int.ediv_eq_zero_of_lt hw0 hw1, zero_add]
  · rw [hkey, Int.add_mul_emod_self, Int.emod_eq_of_lt hw0 hw1,
      Int.add_mul_ediv_left _ _ (by norm_num : (2939745:ℤ) ≠ 0),
      show 149 * (x / 1461) / 2939745 = 0 from
        Int.ediv_eq_zero_of_lt (by omega) (by omega),
      zero_add]

set_option maxRecDepth 40000 in
/-- The month/day step of `to_date_opt` uses the fast EAF
`(2141, 197913, 2^16)` in place of `(5, 461, 153)`; on the full residue
range `[0, 365]` both the quotient and the scaled remainder agree. -/
theorem magic_month_nat : ∀ m : ℕ, m < 366 →
    (2141 * m + 197913) / 65536 = (5 * m + 461) / 153 ∧
    (2141 * m + 197913) % 65536 / 2141 = (5 * m + 461) % 153 / 5 := by
  decide

theorem magic_month (nY : ℤ) (h0 : 0 ≤ nY) (h1 : nY ≤ 365) :
    (2141 * nY + 197913) / 65536 = (5 * nY + 461) / 153 ∧
    (2141 * nY + 197913) % 65536 / 2141 = (5 * nY + 461) % 153 / 5 := by
  obtain ⟨m, rfl⟩ := Int.eq_ofNat_of_zero_le h0
  have hm : m < 366 := by exact_mod_cast (by omega : (m : ℤ) < 366)
  obtain ⟨ha, hb⟩ := magic_month_nat m hm
  constructor
  · exact_mod_cast ha
  · exact_mod_cast hb

/-! ### The optimised, epoch-shifted Gregorian conversions
(`gregorian::to_date_opt` / `gregorian::to_rata_die_opt`, Section 11 of the
paper).  All arithmetic is on the unsigned type (`wrapU W`), except the
final conversions back to `T` (`wrapS W`); the `uint32_t`/`uint64_t`
intermediates (`N_C` through `D`) are structurally below their type bounds
and therefore appear unwrapped. -/

namespace gregorian

def N_opt (W : ℕ) (epoch s N_U : ℤ) : ℤ := wrapU W (N_U + K_opt epoch s)
def N_1_opt (W : ℕ) (epoch s N_U : ℤ) : ℤ :=
  wrapU W (4 * N_opt W epoch s N_U + 3)
def C_opt (W : ℕ) (epoch s N_U : ℤ) : ℤ := N_1_opt W epoch s N_U / 146097
def N_C_opt (W : ℕ) (epoch s N_U : ℤ) : ℤ :=
  N_1_opt W epoch s N_U % 146097 / 4
def N_2_opt (W : ℕ) (epoch s N_U : ℤ) : ℤ := 4 * N_C_opt W epoch s N_U + 3
def P_2_opt (W : ℕ) (epoch s N_U : ℤ) : ℤ := 2939745 * N_2_opt W epoch s N_U
def Z_opt (W : ℕ) (epoch s N_U : ℤ) : ℤ := P_2_opt W epoch s N_U / 4294967296
def N_Y_opt (W : ℕ) (epoch s N_U : ℤ) : ℤ :=
  P_2_opt W epoch s N_U % 4294967296 / 2939745 / 4
def Y_opt (W : ℕ) (epoch s N_U : ℤ) : ℤ :=
  wrapU W (100 * C_opt W epoch s N_U + Z_opt W epoch s N_U)
def N_3_opt (W : ℕ) (epoch s N_U : ℤ) : ℤ :=
  2141 * N_Y_opt W epoch s N_U + 197913
def M_opt (W : ℕ) (epoch s N_U : ℤ) : ℤ := N_3_opt W epoch s N_U / 65536
def D_opt (W : ℕ) (epoch s N_U : ℤ) : ℤ :=
  N_3_opt W epoch s N_U % 65536 / 2141
def J_opt (W : ℕ) (epoch s N_U : ℤ) : ℤ :=
  if 306 ≤ N_Y_opt W epoch s N_U then 1 else 0

/-- `gregorian::to_date_opt` on the `W`-bit type. -/
def to_date_opt (W : ℕ) (epoch s N_U : ℤ) : date_t :=
  ⟨wrapS W (Y_opt W epoch s N_U - L_opt s + J_opt W epoch s N_U),
    if J_opt W epoch s N_U = 1 then M_opt W epoch s N_U - 12
      else M_opt W epoch s N_U,
    D_opt W epoch s N_U + 1⟩

def Y_r_opt (W : ℕ) (s Y_G M_G : ℤ) : ℤ :=
  wrapU W (Y_G + L_opt s - J_r M_G)
def M_r_opt (M_G : ℤ) : ℤ :=
  wrapU 32 (if M_G ≤ 2 then M_G + 12 else M_G)
def C_r_opt (W : ℕ) (s Y_G M_G : ℤ) : ℤ := Y_r_opt W s Y_G M_G / 100
def y_star_opt (W : ℕ) (s Y_G M_G : ℤ) : ℤ :=
  wrapU W (wrapU W (1461 * Y_r_opt W s Y_G M_G) / 4 -
    C_r_opt W s Y_G M_G + C_r_opt W s Y_G M_G / 4)
def m_star_opt (M_G : ℤ) : ℤ := wrapU 32 (153 * M_r_opt M_G - 457) / 5
def N_rd_opt (W : ℕ) (s Y_G M_G D_G : ℤ) : ℤ :=
  wrapU W (y_star_opt W s Y_G M_G + m_star_opt M_G + D_r_w D_G)

/-- C3, `to_date` direction: on the documented domain of
`limits_gregorian_opt`, the optimised conversion — unsigned modulo-`2^W`
arithmetic, the `2939745 / 2^32` multiply-shift in place of the division by
`1461`, the `(2141, 197913, 2^16)` fast EAF in place of `(5, 461, 153)`,
and the shift constants `K = epoch + 146097*s`, `L = 400*s` — computes the
same date as the plain Gregorian conversion applied to `N + epoch`. -/
theorem to_date_opt_eq (W : ℕ) (epoch s N_U : ℤ) (hW : W = 32 ∨ W = 64)
    (he : 0 ≤ epoch) (hs : 0 ≤ s) (hK : K_opt epoch s ≤ type_max W)
    (h1 : rata_die_min_opt W epoch s ≤ N_U)
    (h2 : N_U ≤ rata_die_max_opt W epoch s) :
    to_date_opt W epoch s N_U = to_date_math (N_U + epoch) := by
  have hW1 : 1 ≤ W := by rcases hW with rfl | rfl <;> norm_num
  have hP : (2147483648 : ℤ) ≤ 2 ^ (W - 1) := by
    rcases hW with rfl | rfl <;> norm_num
  have hQ2 : (2 : ℤ) ^ W = 2 * 2 ^ (W - 1) := by
    rcases hW with rfl | rfl <;> norm_num
  unfold rata_die_min_opt K_opt at h1
  unfold rata_die_max_opt K_opt umax at h2
  unfold K_opt type_max at hK
  have eN : N_opt W epoch s N_U = N_U + epoch + 146097 * s := by
    unfold N_opt K_opt
    rw [wrapU_eq_self (by omega) (by omega)]
    ring
  have eN1 : N_1_opt W epoch s N_U = 4 * (N_U + epoch + 146097 * s) + 3 := by
    unfold N_1_opt
    rw [eN]
    exact wrapU_eq_self (by omega) (by omega)
  have eC : C_opt W epoch s N_U = C (N_U + epoch) + 4 * s := by
    unfold C_opt
    rw [eN1]
    unfold C N_1
    omega
  have eNC : N_C_opt W epoch s N_U = N_C (N_U + epoch) := by
    unfold N_C_opt
    rw [eN1]
    unfold N_C N_1
    omega
  have eN2 : N_2_opt W epoch s N_U = N_2 (N_U + epoch) := by
    unfold N_2_opt N_2
    rw [eNC]
  have hN2b : 3 ≤ N_2 (N_U + epoch) ∧ N_2 (N_U + epoch) ≤ 146099 := by
    unfold N_2 N_C N_1
    omega
  have eZ : Z_opt W epoch s N_U = Z (N_U + epoch) := by
    unfold Z_opt P_2_opt Z
    rw [eN2]
    exact (magic_year _ (by omega) (by omega)).1
  have eNY : N_Y_opt W epoch s N_U = N_Y (N_U + epoch) := by
    unfold N_Y_opt P_2_opt N_Y
    rw [eN2]
    exact (magic_year _ (by omega) (by omega)).2
  have hNYb := N_Y_bounds (N_U + epoch)
  have eY : Y_opt W epoch s N_U = Y (N_U + epoch) + 400 * s := by
    unfold Y_opt Y
    rw [eC, eZ]
    rw [wrapU_eq_self (by unfold C Z N_2 N_C N_1; omega)
      (by unfold C Z N_2 N_C N_1; omega)]
    ring
  have eN3 : N_3_opt W epoch s N_U = 2141 * N_Y (N_U + epoch) + 197913 := by
    unfold N_3_opt
    rw [eNY]
  have eM : M_opt W epoch s N_U = M (N_U + epoch) := by
    unfold M_opt
    rw [eN3]
    unfold M N_3
    exact (magic_month _ (by omega) (by omega)).1
  have eD : D_opt W epoch s N_U = D (N_U + epoch) := by
    unfold D_opt
    rw [eN3]
    unfold D N_3
    exact (magic_month _ (by omega) (by omega)).2
  have hiff : 13 ≤ M (N_U + epoch) ↔ 306 ≤ N_Y (N_U + epoch) := by
    unfold M N_3
    omega
  have eJ : J_opt W epoch s N_U = J (N_U + epoch) := by
    unfold J_opt J
    rw [eNY]
    by_cases hj : 306 ≤ N_Y (N_U + epoch)
    · rw [if_pos hj, if_pos (hiff.mpr hj)]
    · rw [if_neg hj, if_neg (fun hc => hj (hiff.mp hc))]
  have hJcases : J (N_U + epoch) = 0 ∨ J (N_U + epoch) = 1 := by
    unfold J
    split_ifs
    · exact Or.inr rfl
    · exact Or.inl rfl
  have hYGb1 : -(2 ^ (W - 1)) ≤ Y (N_U + epoch) + J (N_U + epoch) := by
    rcases hJcases with hj | hj <;> rw [hj] <;>
      unfold Y C Z N_2 N_C N_1 <;> omega
  have hYGb2 : Y (N_U + epoch) + J (N_U + epoch) < 2 ^ (W - 1) := by
    rcases hJcases with hj | hj <;> rw [hj] <;>
      unfold Y C Z N_2 N_C N_1 <;> omega
  have hMG : (if J (N_U + epoch) = 1 then M (N_U + epoch) - 12
      else M (N_U + epoch)) = M (N_U + epoch) - 12 * J (N_U + epoch) := by
    rcases hJcases with hj | hj <;> rw [hj] <;> norm_num
  unfold to_date_opt
  rw [eY, eJ, eM, eD,
    show Y (N_U + epoch) + 400 * s - L_opt s + J (N_U + epoch) =
      Y (N_U + epoch) + J (N_U + epoch) from by unfold L_opt; ring,
    wrapS_eq_self hW1 hYGb1 hYGb2, hMG]
  rfl

/-- `gregorian::to_rata_die_opt` on the `W`-bit type. -/
def to_rata_die_opt (W : ℕ) (epoch s Y_G M_G D_G : ℤ) : ℤ :=
  wrapS W (wrapU W (N_rd_opt W s Y_G M_G D_G - K_opt epoch s))

/-- C3, `to_rata_die` direction: on the documented date domain of
`limits_gregorian_opt` (with a valid month and day), the optimised
conversion returns `to_rata_die(Y, M, D) - epoch`. -/
theorem to_rata_die_opt_eq (W : ℕ) (epoch s Y_G M_G D_G : ℤ)
    (hW : W = 32 ∨ W = 64) (he : 0 ≤ epoch) (hs : 0 ≤ s)
    (hK : K_opt epoch s ≤ type_max W)
    (hM : 1 ≤ M_G ∧ M_G ≤ 12) (hD : 1 ≤ D_G ∧ D_G ≤ 31)
    (hdmin : ¬ date_lt ⟨Y_G, M_G, D_G⟩ (date_min_opt W epoch s))
    (hdmax : ¬ date_lt (date_max_opt W epoch s) ⟨Y_G, M_G, D_G⟩) :
    to_rata_die_opt W epoch s Y_G M_G D_G =
      to_rata_die_math Y_G M_G D_G - epoch := by
  have hW1 : 1 ≤ W := by rcases hW with rfl | rfl <;> norm_num
  have hP : (2147483648 : ℤ) ≤ 2 ^ (W - 1) := by
    rcases hW with rfl | rfl <;> norm_num
  have hQ2 : (2 : ℤ) ^ W = 2 * 2 ^ (W - 1) := by
    rcases hW with rfl | rfl <;> norm_num
  unfold date_lt at hdmin hdmax
  unfold date_min_opt L_opt at hdmin
  unfold date_max_opt L_opt umax at hdmax
  dsimp only at hdmin hdmax
  unfold K_opt type_max at hK
  have hJb : (M_G ≤ 2 ∧ J_r M_G = 1) ∨ (2 < M_G ∧ J_r M_G = 0) := by
    rw [show J_r M_G = (if M_G ≤ 2 then 1 else 0) from rfl]
    split_ifs with hsplit
    · exact Or.inl ⟨hsplit, rfl⟩
    · exact Or.inr ⟨by omega, rfl⟩
  have hYu : 0 ≤ Y_G + 400 * s - J_r M_G ∧
      Y_G + 400 * s - J_r M_G ≤ (2 ^ W - 1) / 1461 := by omega
  have eYr : Y_r_opt W s Y_G M_G = Y_G + 400 * s - J_r M_G := by
    unfold Y_r_opt L_opt
    exact wrapU_eq_self (by omega) (by omega)
  have e1461 : wrapU W (1461 * Y_r_opt W s Y_G M_G) =
      1461 * (Y_G + 400 * s - J_r M_G) := by
    rw [eYr]
    exact wrapU_eq_self (by omega) (by omega)
  have eCr : C_r_opt W s Y_G M_G = (Y_G + 400 * s - J_r M_G) / 100 := by
    unfold C_r_opt
    rw [eYr]
  have ey : y_star_opt W s Y_G M_G =
      1461 * (Y_G + 400 * s - J_r M_G) / 4 -
        (Y_G + 400 * s - J_r M_G) / 100 +
        (Y_G + 400 * s - J_r M_G) / 100 / 4 := by
    unfold y_star_opt
    rw [e1461, eCr]
    exact wrapU_eq_self (by omega) (by omega)
  have eMr : M_r_opt M_G = M_G + 12 * J_r M_G := by
    unfold M_r_opt
    rcases hJb with ⟨hm2, hj⟩ | ⟨hm2, hj⟩
    · rw [if_pos hm2, wrapU_eq_self (by omega) (by omega), hj]
      ring
    · rw [if_neg (by omega), wrapU_eq_self (by omega) (by omega), hj]
      ring
  have em : m_star_opt M_G = (153 * (M_G + 12 * J_r M_G) - 457) / 5 := by
    unfold m_star_opt
    rw [eMr, wrapU_eq_self (by omega) (by omega)]
  have eDr : D_r_w D_G = D_G - 1 := by
    unfold D_r_w
    exact wrapU_eq_self (by omega) (by omega)
  have hyb : 0 ≤ y_star_opt W s Y_G M_G ∧
      y_star_opt W s Y_G M_G ≤ (2 ^ W - 1) / 4 + 3 := by
    rw [ey]
    have h1a : (Y_G + 400 * s - J_r M_G) / 100 ≤ Y_G + 400 * s - J_r M_G := by
      omega
    have h1b : Y_G + 400 * s - J_r M_G ≤
        1461 * (Y_G + 400 * s - J_r M_G) / 4 := by
      omega
    have h2a : 0 ≤ (Y_G + 400 * s - J_r M_G) / 100 / 4 := by omega
    have h2b : (Y_G + 400 * s - J_r M_G) / 100 / 4 ≤
        (Y_G + 400 * s - J_r M_G) / 100 := by omega
    have h3 : 1461 * (Y_G + 400 * s - J_r M_G) / 4 ≤ (2 ^ W - 1) / 4 := by
      omega
    omega
  have hmb : 0 ≤ m_star_opt M_G ∧ m_star_opt M_G ≤ 400 := by
    rw [em]
    omega
  have eN : N_rd_opt W s Y_G M_G D_G =
      y_star_opt W s Y_G M_G + m_star_opt M_G + (D_G - 1) := by
    unfold N_rd_opt
    rw [eDr]
    exact wrapU_eq_self (by omega) (by omega)
  -- the cycle shift: moving the year by 400*s moves the rata die by 146097*s
  have hshift : ∀ u t : ℤ,
      1461 * (u + 400 * t) / 4 - (u + 400 * t) / 100 +
        (u + 400 * t) / 100 / 4 =
      1461 * u / 4 - u / 100 + u / 100 / 4 + 146097 * t := by
    intro u t
    have hs1 : 1461 * (u + 400 * t) / 4 = 1461 * u / 4 + 146100 * t := by
      omega
    have hs2 : (u + 400 * t) / 100 = u / 100 + 4 * t := by omega
    rw [hs1, hs2, show (u / 100 + 4 * t) / 4 = u / 100 / 4 + t from by omega]
    ring
  have hsh : y_star_opt W s Y_G M_G =
      1461 * (Y_G - J_r M_G) / 4 - (Y_G - J_r M_G) / 100 +
        (Y_G - J_r M_G) / 100 / 4 + 146097 * s := by
    rw [ey, show Y_G + 400 * s - J_r M_G = Y_G - J_r M_G + 400 * s from by
      ring]
    exact hshift (Y_G - J_r M_G) s
  unfold to_rata_die_opt
  rw [wrapS_wrapU]
  have hNb : 0 ≤ N_rd_opt W s Y_G M_G D_G ∧
      N_rd_opt W s Y_G M_G D_G ≤ (2 ^ W - 1) / 4 + 433 := by
    rw [eN]
    omega
  rw [show K_opt epoch s = epoch + 146097 * s from rfl,
    wrapS_eq_self hW1 (by omega) (by omega), eN, hsh, em]
  unfold to_rata_die_math y_star m_star C_r Y_r M_r
  ring

end gregorian

/-! ### Date validity: the leap-year and month-length helpers of
`src/tests/tests.hpp` -/

/-- `julian_leap_t::is_leap_year`: `y % 4 == 0` (`%` the truncating C++
remainder on `int32_t`). -/
def is_leap_year_julian (y : ℤ) : Bool := y.tmod 4 == 0

/-- `gregorian_leap_t::is_leap_year`:
`(y & (y % 25 == 0 ? 15 : 3)) == 0`.  The bitwise AND of a
two's-complement value with `2^k - 1` is its Euclidean remainder modulo
`2^k`, so the masks `15` / `3` are `% 16` / `% 4`. -/
def is_leap_year_gregorian (y : ℤ) : Bool :=
  y % (if y.tmod 25 == 0 then 16 else 4) == 0

/-- `calendar_t<Leap>::last_day_of_month`:
`m != 2 ? ((m ^ (m >> 3))) | 30 : Leap::is_leap_year(y) ? 29 : 28`
(`m` is a `uint32_t`; XOR, shift and OR act on its non-negative value). -/
def last_day_of_month (leap : ℤ → Bool) (y m : ℤ) : ℤ :=
  if m ≠ 2 then ((m.toNat ^^^ (m.toNat >>> 3)) ||| 30 : ℕ)
  else if leap y then 29 else 28

theorem is_leap_year_gregorian_true (y : ℤ) (h4 : y % 4 = 0)
    (h16 : y % 25 = 0 → y % 16 = 0) : is_leap_year_gregorian y = true := by
  unfold is_leap_year_gregorian
  rw [beq_iff_eq]
  by_cases h : y.tmod 25 = 0
  · rw [if_pos (beq_iff_eq.mpr h)]
    have hdvd : (25 : ℤ) ∣ y := ⟨y.tdiv 25, by
      have h2 := Int.tdiv_add_tmod y 25
      omega⟩
    exact h16 (Int.emod_eq_zero_of_dvd hdvd)
  · rw [if_neg (fun hh => h (beq_iff_eq.mp hh))]
    exact h4

theorem is_leap_year_julian_true (y : ℤ) (h4 : y % 4 = 0) :
    is_leap_year_julian y = true := by
  unfold is_leap_year_julian
  rw [beq_iff_eq]
  obtain ⟨k, rfl⟩ := Int.dvd_of_emod_eq_zero h4
  rw [mul_comm]
  exact Int.mul_tmod_left k 4

/-- The final month (`M - 12*J`) as a function of the computational
month `M ∈ [3, 14]`. -/
def monthF (m : ℕ) : ℕ := if 13 ≤ m then m - 12 else m

set_option maxRecDepth 40000 in
/-- Per-day-of-year table: over the whole computational year the final
month is in `[1, 12]`; outside February the day fits the bitwise
month-length formula, and February reaches day 29 only on the last
day-of-year `365`. -/
theorem md_table : ∀ nY : ℕ, nY < 366 →
    1 ≤ monthF ((5 * nY + 461) / 153) ∧
      monthF ((5 * nY + 461) / 153) ≤ 12 ∧
      (monthF ((5 * nY + 461) / 153) ≠ 2 →
        (5 * nY + 461) % 153 / 5 + 1 ≤
          (monthF ((5 * nY + 461) / 153) ^^^
            (monthF ((5 * nY + 461) / 153) >>> 3)) ||| 30) ∧
      (monthF ((5 * nY + 461) / 153) = 2 →
        (5 * nY + 461) % 153 / 5 + 1 ≤ 29 ∧
          ((5 * nY + 461) % 153 / 5 + 1 = 29 → nY = 365)) := by
  decide

/-- Arithmetic core of the Gregorian leap-year correctness at day-of-year
365: with `a` the century and `b` the in-century remainder of the rata-die
cascade, divisibility of the year by 25 forces the last year of the
400-year cycle, whose century index is `3 mod 4`. -/
theorem gregorian_leap_arith (a b : ℤ) (hb0 : 0 ≤ b) (hb1 : b < 146097)
    (h365 : (4 * (b / 4) + 3) % 1461 / 4 = 365)
    (h25 : (100 * a + (4 * (b / 4) + 3) / 1461 + 1) % 25 = 0)
    (hrel : (4 : ℤ) ∣ (146097 * a + b - 3)) :
    (100 * a + (4 * (b / 4) + 3) / 1461 + 1) % 16 = 0 := by
  have hz4 : (4 * (b / 4) + 3) / 1461 % 4 = 3 := by
    clear h25 hrel
    omega
  have hr2 : (4 * (b / 4) + 3) % 1461 = 1460 := by
    clear h25 hrel
    omega
  have hzb : (4 * (b / 4) + 3) / 1461 ≤ 99 := by
    clear h25 hrel
    omega
  have h25' : ((4 * (b / 4) + 3) / 1461 + 1) % 25 = 0 := by
    have hsplit : 100 * a + (4 * (b / 4) + 3) / 1461 + 1 =
        (4 * (b / 4) + 3) / 1461 + 1 + 25 * (4 * a) := by ring
    rw [hsplit, Int.add_mul_emod_self_left] at h25
    exact h25
  have hz99 : (4 * (b / 4) + 3) / 1461 = 99 := by
    clear h25 hrel
    omega
  have hu : b = 146096 := by
    clear h25 hrel
    omega
  have hc : a % 4 = 3 := by
    clear h25 h25' h365 hz4 hr2 hzb hz99
    subst hu
    omega
  obtain ⟨t, ht⟩ : ∃ t, a = 4 * t + 3 := ⟨a / 4, by clear h25 hrel; omega⟩
  rw [hz99, ht, show 100 * (4 * t + 3) + 99 + 1 = 16 * (25 * t + 25) from by
    ring]
  exact Int.mul_emod_right 16 _

namespace gregorian

set_option maxHeartbeats 1000000 in
/-- When the computational day-of-year reaches `365` (29 February), the
produced Gregorian year is leap. -/
theorem leap_of_NY365 (N : ℤ) (h : N_Y N = 365) :
    is_leap_year_gregorian (Y N + 1) = true := by
  apply is_leap_year_gregorian_true
  · unfold Y C Z N_2 N_C N_1
    unfold N_Y N_2 N_C N_1 at h
    omega
  · intro h25
    unfold Y C Z N_2 N_C N_1 at h25 ⊢
    unfold N_Y N_2 N_C N_1 at h
    exact gregorian_leap_arith ((4 * N + 3) / 146097)
      ((4 * N + 3) % 146097) (by omega) (by omega) h h25 (by omega)

/-- Validity of the exact Gregorian date: month in `[1, 12]`, day at
least `1` and at most the last day of the month. -/
theorem to_date_math_valid (N : ℤ) :
    1 ≤ (to_date_math N).month ∧ (to_date_math N).month ≤ 12 ∧
      1 ≤ (to_date_math N).day ∧
      (to_date_math N).day ≤
        last_day_of_month is_leap_year_gregorian (to_date_math N).year
          (to_date_math N).month := by
  have hNY := N_Y_bounds N
  obtain ⟨nY, hnY⟩ := Int.eq_ofNat_of_zero_le hNY.1
  have hlt : nY < 366 := by omega
  obtain ⟨hm1, hm12, hne2, heq2⟩ := md_table nY hlt
  have hM : M N = ((5 * nY + 461) / 153 : ℕ) := by
    unfold M N_3
    rw [hnY]
    exact_mod_cast rfl
  have hD : D N = ((5 * nY + 461) % 153 / 5 : ℕ) := by
    unfold D N_3
    rw [hnY]
    exact_mod_cast rfl
  have hm3 : 3 ≤ (5 * nY + 461) / 153 := by omega
  have hMonth : (to_date_math N).month =
      (monthF ((5 * nY + 461) / 153) : ℕ) := by
    show M N - 12 * J N = _
    unfold J monthF
    rw [hM]
    by_cases h13 : 13 ≤ (5 * nY + 461) / 153
    · rw [if_pos (by exact_mod_cast h13), if_pos h13,
        Nat.cast_sub (by omega : 12 ≤ (5 * nY + 461) / 153)]
      push_cast
      ring
    · rw [if_neg (fun hh => h13 (by exact_mod_cast hh)), if_neg h13]
      ring
  have hDay : (to_date_math N).day =
      ((5 * nY + 461) % 153 / 5 + 1 : ℕ) := by
    show D N + 1 = _
    rw [hD]
    push_cast
    ring
  refine ⟨?_, ?_, ?_, ?_⟩
  · rw [hMonth]
    exact_mod_cast hm1
  · rw [hMonth]
    exact_mod_cast hm12
  · rw [hDay]
    exact_mod_cast Nat.succ_le_succ (Nat.zero_le _)
  · by_cases h2 : (to_date_math N).month = 2
    · have hmf2 : monthF ((5 * nY + 461) / 153) = 2 := by
        have hh := hMonth
        rw [h2] at hh
        exact_mod_cast hh.symm
      obtain ⟨hd29, hd365⟩ := heq2 hmf2
      have hfeb : last_day_of_month is_leap_year_gregorian
          (to_date_math N).year (to_date_math N).month =
          if is_leap_year_gregorian (to_date_math N).year then 29
            else 28 := by
        unfold last_day_of_month
        rw [h2, if_neg (by norm_num)]
      rw [hfeb]
      by_cases h29 : (5 * nY + 461) % 153 / 5 + 1 = 29
      · have h365 : nY = 365 := hd365 h29
        have hNY365 : N_Y N = 365 := by
          rw [hnY, h365]
          rfl
        have hm14 : 13 ≤ (5 * nY + 461) / 153 := by
          unfold monthF at hmf2
          split_ifs at hmf2 with hh
          · exact hh
          · omega
        have hyear : (to_date_math N).year = Y N + 1 := by
          show Y N + J N = Y N + 1
          unfold J
          rw [if_pos (by rw [hM]; exact_mod_cast hm14)]
        rw [hyear, leap_of_NY365 N hNY365, if_pos rfl, hDay]
        exact_mod_cast hd29
      · have hd28 : (5 * nY + 461) % 153 / 5 + 1 ≤ 28 := by omega
        split_ifs
        · rw [hDay]
          exact_mod_cast hd29
        · rw [hDay]
          exact_mod_cast hd28
    · have hmf2 : monthF ((5 * nY + 461) / 153) ≠ 2 := by
        intro hh
        apply h2
        rw [hMonth, hh]
        rfl
      have hd := hne2 hmf2
      have hlast : last_day_of_month is_leap_year_gregorian
          (to_date_math N).year (to_date_math N).month =
          ((monthF ((5 * nY + 461) / 153) ^^^
            (monthF ((5 * nY + 461) / 153) >>> 3)) ||| 30 : ℕ) := by
        unfold last_day_of_month
        rw [if_pos h2, hMonth, Int.toNat_ofNat]
      rw [hlast, hDay]
      exact_mod_cast hd

/-- The month of an exact Gregorian date is in `[1, 12]` and its day in
`[1, 31]`. -/
theorem month_day_range (N : ℤ) :
    1 ≤ (to_date_math N).month ∧ (to_date_math N).month ≤ 12 ∧
      1 ≤ (to_date_math N).day ∧ (to_date_math N).day ≤ 31 := by
  have hNY := N_Y_bounds N
  show 1 ≤ M N - 12 * J N ∧ M N - 12 * J N ≤ 12 ∧
    1 ≤ D N + 1 ∧ D N + 1 ≤ 31
  unfold J M D N_3
  split_ifs <;> omega

end gregorian

namespace julian

/-- When the computational day-of-year reaches `365` (29 February), the
produced Julian year is leap. -/
theorem leap_of_NY365_julian (N : ℤ) (h : N_Y N = 365) :
    is_leap_year_julian (Y N + 1) = true := by
  apply is_leap_year_julian_true
  unfold Y N_1
  unfold N_Y N_1 at h
  omega

/-- Validity of the exact Julian date: month in `[1, 12]`, day at least
`1` and at most the last day of the month. -/
theorem to_date_math_valid_julian (N : ℤ) :
    1 ≤ (to_date_math N).month ∧ (to_date_math N).month ≤ 12 ∧
      1 ≤ (to_date_math N).day ∧
      (to_date_math N).day ≤
        last_day_of_month is_leap_year_julian (to_date_math N).year
          (to_date_math N).month := by
  have hNY := N_Y_bounds_julian N
  obtain ⟨nY, hnY⟩ := Int.eq_ofNat_of_zero_le hNY.1
  have hlt : nY < 366 := by omega
  obtain ⟨hm1, hm12, hne2, heq2⟩ := md_table nY hlt
  have hM : M N = ((5 * nY + 461) / 153 : ℕ) := by
    unfold M N_2
    rw [hnY]
    exact_mod_cast rfl
  have hD : D N = ((5 * nY + 461) % 153 / 5 : ℕ) := by
    unfold D N_2
    rw [hnY]
    exact_mod_cast rfl
  have hm3 : 3 ≤ (5 * nY + 461) / 153 := by omega
  have hMonth : (to_date_math N).month =
      (monthF ((5 * nY + 461) / 153) : ℕ) := by
    show M N - 12 * J N = _
    unfold J monthF
    rw [hM]
    by_cases h13 : 13 ≤ (5 * nY + 461) / 153
    · rw [if_pos (by exact_mod_cast h13), if_pos h13,
        Nat.cast_sub (by omega : 12 ≤ (5 * nY + 461) / 153)]
      push_cast
      ring
    · rw [if_neg (fun hh => h13 (by exact_mod_cast hh)), if_neg h13]
      ring
  have hDay : (to_date_math N).day =
      ((5 * nY + 461) % 153 / 5 + 1 : ℕ) := by
    show D N + 1 = _
    rw [hD]
    push_cast
    ring
  refine ⟨?_, ?_, ?_, ?_⟩
  · rw [hMonth]
    exact_mod_cast hm1
  · rw [hMonth]
    exact_mod_cast hm12
  · rw [hDay]
    exact_mod_cast Nat.succ_le_succ (Nat.zero_le _)
  · by_cases h2 : (to_date_math N).month = 2
    · have hmf2 : monthF ((5 * nY + 461) / 153) = 2 := by
        have hh := hMonth
        rw [h2] at hh
        exact_mod_cast hh.symm
      obtain ⟨hd29, hd365⟩ := heq2 hmf2
      have hfeb : last_day_of_month is_leap_year_julian
          (to_date_math N).year (to_date_math N).month =
          if is_leap_year_julian (to_date_math N).year then 29
            else 28 := by
        unfold last_day_of_month
        rw [h2, if_neg (by norm_num)]
      rw [hfeb]
      by_cases h29 : (5 * nY + 461) % 153 / 5 + 1 = 29
      · have h365 : nY = 365 := hd365 h29
        have hNY365 : N_Y N = 365 := by
          rw [hnY, h365]
          rfl
        have hm14 : 13 ≤ (5 * nY + 461) / 153 := by
          unfold monthF at hmf2
          split_ifs at hmf2 with hh
          · exact hh
          · omega
        have hyear : (to_date_math N).year = Y N + 1 := by
          show Y N + J N = Y N + 1
          unfold J
          rw [if_pos (by rw [hM]; exact_mod_cast hm14)]
        rw [hyear, leap_of_NY365_julian N hNY365, if_pos rfl, hDay]
        exact_mod_cast hd29
      · have hd28 : (5 * nY + 461) % 153 / 5 + 1 ≤ 28 := by omega
        split_ifs
        · rw [hDay]
          exact_mod_cast hd29
        · rw [hDay]
          exact_mod_cast hd28
    · have hmf2 : monthF ((5 * nY + 461) / 153) ≠ 2 := by
        intro hh
        apply h2
        rw [hMonth, hh]
        rfl
      have hd := hne2 hmf2
      have hlast : last_day_of_month is_leap_year_julian
          (to_date_math N).year (to_date_math N).month =
          ((monthF ((5 * nY + 461) / 153) ^^^
            (monthF ((5 * nY + 461) / 153) >>> 3)) ||| 30 : ℕ) := by
        unfold last_day_of_month
        rw [if_pos h2, hMonth, Int.toNat_ofNat]
      rw [hlast, hDay]
      exact_mod_cast hd

/-- The month of an exact Julian date is in `[1, 12]` and its day in
`[1, 31]`. -/
theorem month_day_range_julian (N : ℤ) :
    1 ≤ (to_date_math N).month ∧ (to_date_math N).month ≤ 12 ∧
      1 ≤ (to_date_math N).day ∧ (to_date_math N).day ≤ 31 := by
  have hNY := N_Y_bounds_julian N
  show 1 ≤ M N - 12 * J N ∧ M N - 12 * J N ≤ 12 ∧
    1 ≤ D N + 1 ∧ D N + 1 ≤ 31
  unfold J M D N_2
  split_ifs <;> omega

end julian

/-- C2 counterexample: `N = rata_die_max` of the 32-bit type lies in the
documented rata-die domain, yet the Gregorian round trip returns
`-536870913` instead of `N`: the date produced by `to_date` has year
`1469902`, beyond `date_max`, so `1461 * Y` overflows inside
`to_rata_die`. -/
theorem round_trip_counterexample :
    rata_die_min 32 ≤ 536870911 ∧ (536870911 : ℤ) ≤ rata_die_max 32 ∧
      gregorian.to_rata_die 32 (gregorian.to_date 32 536870911).year
          (gregorian.to_date 32 536870911).month
          (gregorian.to_date 32 536870911).day ≠ 536870911 :=
  ⟨by decide, by decide, by decide⟩

/-- C2 (amended): the round trip `to_rata_die (to_date N) = N` holds for
every `N` in the documented rata-die domain such that additionally (i)
`4*N + 3` stays above the low band where the adjustment `n - (d - 1)`
inside `eaf::quotient` underflows the signed type, and (ii) the produced
date lies in the documented date domain `[date_min, date_max]` (without
(ii) the statement fails — see the counterexample — because the year
produced near `rata_die_max` overflows `1461 * Y` in `to_rata_die`).
Under those domain conditions it holds for all three variants: plain
Gregorian, plain Julian, and optimised epoch-shifted Gregorian. -/
theorem round_trip (W : ℕ) (epoch s : ℤ) (hW : W = 32 ∨ W = 64)
    (he : 0 ≤ epoch) (hs : 0 ≤ s) (hK : K_opt epoch s ≤ type_max W) :
    (∀ N : ℤ, rata_die_min W ≤ N → N ≤ rata_die_max W →
      type_min W + 146096 ≤ 4 * N + 3 →
      ¬ date_lt (gregorian.to_date W N) (date_min W) →
      ¬ date_lt (date_max W) (gregorian.to_date W N) →
      gregorian.to_rata_die W (gregorian.to_date W N).year
        (gregorian.to_date W N).month (gregorian.to_date W N).day = N) ∧
    (∀ N : ℤ, rata_die_min W ≤ N → N ≤ rata_die_max W →
      type_min W + 1460 ≤ 4 * N + 3 →
      ¬ date_lt (julian.to_date W N) (date_min W) →
      ¬ date_lt (date_max W) (julian.to_date W N) →
      julian.to_rata_die W (julian.to_date W N).year
        (julian.to_date W N).month (julian.to_date W N).day = N) ∧
    (∀ N : ℤ, rata_die_min_opt W epoch s ≤ N →
      N ≤ rata_die_max_opt W epoch s →
      ¬ date_lt (gregorian.to_date_opt W epoch s N)
        (date_min_opt W epoch s) →
      ¬ date_lt (date_max_opt W epoch s)
        (gregorian.to_date_opt W epoch s N) →
      gregorian.to_rata_die_opt W epoch s
        (gregorian.to_date_opt W epoch s N).year
        (gregorian.to_date_opt W epoch s N).month
        (gregorian.to_date_opt W epoch s N).day = N) := by
  refine ⟨?_, ?_, ?_⟩
  · intro N h1 h2 hband hdmin hdmax
    rw [gregorian.to_date_w_eq W N hW h1 h2 hband] at hdmin hdmax ⊢
    have hr := gregorian.month_day_range N
    have heq := gregorian.to_rata_die_w_eq W
      (gregorian.to_date_math N).year (gregorian.to_date_math N).month
      (gregorian.to_date_math N).day hW ⟨hr.1, hr.2.1⟩
      ⟨hr.2.2.1, hr.2.2.2⟩ hdmin hdmax
    rw [heq]
    exact gregorian.round_trip_math N
  · intro N h1 h2 hband hdmin hdmax
    rw [julian.to_date_w_eq_julian W N hW h1 h2 hband] at hdmin hdmax ⊢
    have hr := julian.month_day_range_julian N
    have heq := julian.to_rata_die_w_eq_julian W
      (julian.to_date_math N).year (julian.to_date_math N).month
      (julian.to_date_math N).day hW ⟨hr.1, hr.2.1⟩
      ⟨hr.2.2.1, hr.2.2.2⟩ hdmin hdmax
    rw [heq]
    exact julian.round_trip_math_julian N
  · intro N h1 h2 hdmin hdmax
    rw [gregorian.to_date_opt_eq W epoch s N hW he hs hK h1 h2]
      at hdmin hdmax ⊢
    have hr := gregorian.month_day_range (N + epoch)
    have heq := gregorian.to_rata_die_opt_eq W epoch s
      (gregorian.to_date_math (N + epoch)).year
      (gregorian.to_date_math (N + epoch)).month
      (gregorian.to_date_math (N + epoch)).day hW he hs hK
      ⟨hr.1, hr.2.1⟩ ⟨hr.2.2.1, hr.2.2.2⟩ hdmin hdmax
    rw [heq, gregorian.round_trip_math (N + epoch)]
    ring

theorem round_trip_witness :
    gregorian.to_rata_die 32 (gregorian.to_date 32 0).year
        (gregorian.to_date 32 0).month (gregorian.to_date 32 0).day = 0 ∧
      julian.to_rata_die 32 (julian.to_date 32 0).year
        (julian.to_date 32 0).month (julian.to_date 32 0).day = 0 ∧
      gregorian.to_rata_die_opt 32 719468 82
        (gregorian.to_date_opt 32 719468 82 0).year
        (gregorian.to_date_opt 32 719468 82 0).month
        (gregorian.to_date_opt 32 719468 82 0).day = 0 :=
  ⟨(round_trip 32 719468 82 (Or.inl rfl) (by decide) (by decide)
        (by decide)).1 0 (by decide) (by decide) (by decide) (by decide)
      (by decide),
    (round_trip 32 719468 82 (Or.inl rfl) (by decide) (by decide)
        (by decide)).2.1 0 (by decide) (by decide) (by decide) (by decide)
      (by decide),
    (round_trip 32 719468 82 (Or.inl rfl) (by decide) (by decide)
        (by decide)).2.2 0 (by decide) (by decide) (by decide) (by decide)⟩

/-- C3: for every epoch shift and cycle count `s` (with `K = epoch +
146097*s` fitting the signed type), on the documented domain of
`limits_gregorian_opt` the optimised Gregorian conversions — unsigned
modulo-`2^W` arithmetic, the `2939745 / 2^32` multiply-shift in place of
the division by `1461`, the `(2141, 197913, 2^16)` fast EAF for the month,
and the shift constants `K = epoch + 146097*s`, `L = 400*s` — return the
same date as the plain Gregorian conversion applied to `N + epoch`, and
symmetrically `to_rata_die_opt Y M D = to_rata_die Y M D - epoch` on the
documented date domain (the plain conversion being its exact mathematical
function `to_date_math` / `to_rata_die_math`). -/
theorem gregorian_opt_equiv (W : ℕ) (epoch s : ℤ) (hW : W = 32 ∨ W = 64)
    (he : 0 ≤ epoch) (hs : 0 ≤ s) (hK : K_opt epoch s ≤ type_max W) :
    (∀ N_U : ℤ, rata_die_min_opt W epoch s ≤ N_U →
        N_U ≤ rata_die_max_opt W epoch s →
        gregorian.to_date_opt W epoch s N_U =
          gregorian.to_date_math (N_U + epoch)) ∧
      ∀ Y_G M_G D_G : ℤ, 1 ≤ M_G → M_G ≤ 12 → 1 ≤ D_G → D_G ≤ 31 →
        ¬ date_lt ⟨Y_G, M_G, D_G⟩ (date_min_opt W epoch s) →
        ¬ date_lt (date_max_opt W epoch s) ⟨Y_G, M_G, D_G⟩ →
        gregorian.to_rata_die_opt W epoch s Y_G M_G D_G =
          gregorian.to_rata_die_math Y_G M_G D_G - epoch :=
  ⟨fun N_U h1 h2 =>
      gregorian.to_date_opt_eq W epoch s N_U hW he hs hK h1 h2,
    fun Y_G M_G D_G hM1 hM2 hD1 hD2 hmin hmax =>
      gregorian.to_rata_die_opt_eq W epoch s Y_G M_G D_G hW he hs hK
        ⟨hM1, hM2⟩ ⟨hD1, hD2⟩ hmin hmax⟩

theorem gregorian_opt_equiv_witness :
    gregorian.to_date_opt 32 719468 82 0 = gregorian.to_date_math 719468 ∧
      gregorian.to_rata_die_opt 32 719468 82 1970 1 1 =
        gregorian.to_rata_die_math 1970 1 1 - 719468 :=
  ⟨(gregorian_opt_equiv 32 719468 82 (Or.inl rfl) (by decide) (by decide)
        (by decide)).1 0 (by decide) (by decide),
    (gregorian_opt_equiv 32 719468 82 (Or.inl rfl) (by decide) (by decide)
        (by decide)).2 1970 1 1 (by decide) (by decide) (by decide)
      (by decide) (by decide) (by decide)⟩

/-- C7: the Unix-epoch-shifted optimised Gregorian variant of the test
suite (`to_date_opt<int32_t, 719468, 82>` / `to_rata_die_opt<int32_t,
719468, 82>`) has the Unix epoch as a fixed point: `to_date(0)` is
1 January 1970 and `to_rata_die(1970, 1, 1)` is `0`. -/
theorem unix_epoch_fixed_point :
    gregorian.to_date_opt 32 719468 82 0 = ⟨1970, 1, 1⟩ ∧
      gregorian.to_rata_die_opt 32 719468 82 1970 1 1 = 0 :=
  ⟨by decide, by decide⟩

namespace julian

def to_date_checked (W : ℕ) (N : ℤ) : Bool × date_t :=
  (decide (N < rata_die_min W ∨ rata_die_max W < N), to_date W N)

def to_rata_die_checked (W : ℕ) (Y_J M_J D_J : ℤ) : Bool × ℤ :=
  (decide (date_lt ⟨Y_J, M_J, D_J⟩ (date_min W) ∨
      date_lt (date_max W) ⟨Y_J, M_J, D_J⟩),
    to_rata_die W Y_J M_J D_J)

end julian

/-- C9: the conversion functions never reject their input: `to_date`
prints its out-of-bounds warning exactly when `N < rata_die_min` or
`rata_die_max < N`, and in every case still computes and returns the date;
symmetrically `to_rata_die` warns exactly when the date is outside
`[date_min, date_max]` and still returns the rata die (both calendars). -/
theorem checked_warn_iff (W : ℕ) (N Y M D : ℤ) :
    ((gregorian.to_date_checked W N).1 = true ↔
        (N < rata_die_min W ∨ rata_die_max W < N)) ∧
      (gregorian.to_date_checked W N).2 = gregorian.to_date W N ∧
      ((gregorian.to_rata_die_checked W Y M D).1 = true ↔
        (date_lt ⟨Y, M, D⟩ (date_min W) ∨
          date_lt (date_max W) ⟨Y, M, D⟩)) ∧
      (gregorian.to_rata_die_checked W Y M D).2 =
        gregorian.to_rata_die W Y M D ∧
      ((julian.to_date_checked W N).1 = true ↔
        (N < rata_die_min W ∨ rata_die_max W < N)) ∧
      (julian.to_date_checked W N).2 = julian.to_date W N ∧
      ((julian.to_rata_die_checked W Y M D).1 = true ↔
        (date_lt ⟨Y, M, D⟩ (date_min W) ∨
          date_lt (date_max W) ⟨Y, M, D⟩)) ∧
      (julian.to_rata_die_checked W Y M D).2 = julian.to_rata_die W Y M D :=
  ⟨decide_eq_true_iff, rfl, decide_eq_true_iff, rfl,
    decide_eq_true_iff, rfl, decide_eq_true_iff, rfl⟩

/-- C10 counterexample: `N = -536870800` lies in the documented 32-bit
rata-die domain (`rata_die_min = -536870912`), yet `julian::to_date`
returns 31 November 1469872 — day `31` exceeds November's 30 days —
because `n - (d - 1)` inside `eaf::quotient` underflows `int32_t` on this
low band of the domain. -/
theorem to_date_valid_counterexample :
    rata_die_min 32 ≤ -536870800 ∧ (-536870800 : ℤ) ≤ rata_die_max 32 ∧
      julian.to_date 32 (-536870800) = ⟨1469872, 11, 31⟩ ∧
      ¬ ((julian.to_date 32 (-536870800)).day ≤
        last_day_of_month is_leap_year_julian
          (julian.to_date 32 (-536870800)).year
          (julian.to_date 32 (-536870800)).month) :=
  ⟨by decide, by decide, by decide, by decide⟩

/-- C10 (amended): for every rata die in the documented domain that also
avoids the low band where `n - (d - 1)` inside `eaf::quotient` underflows
the signed type (the unrestricted statement fails there — see the
counterexample), every variant of `to_date` returns a valid date: month
in `[1, 12]` and day in `[1, last_day_of_month]` — in particular
`day ≤ 31`. -/
theorem to_date_valid (W : ℕ) (epoch s : ℤ) (hW : W = 32 ∨ W = 64)
    (he : 0 ≤ epoch) (hs : 0 ≤ s) (hK : K_opt epoch s ≤ type_max W) :
    (∀ N : ℤ, rata_die_min W ≤ N → N ≤ rata_die_max W →
      type_min W + 146096 ≤ 4 * N + 3 →
      1 ≤ (gregorian.to_date W N).month ∧
        (gregorian.to_date W N).month ≤ 12 ∧
        1 ≤ (gregorian.to_date W N).day ∧
        (gregorian.to_date W N).day ≤
          last_day_of_month is_leap_year_gregorian
            (gregorian.to_date W N).year (gregorian.to_date W N).month) ∧
    (∀ N : ℤ, rata_die_min W ≤ N → N ≤ rata_die_max W →
      type_min W + 1460 ≤ 4 * N + 3 →
      1 ≤ (julian.to_date W N).month ∧
        (julian.to_date W N).month ≤ 12 ∧
        1 ≤ (julian.to_date W N).day ∧
        (julian.to_date W N).day ≤
          last_day_of_month is_leap_year_julian
            (julian.to_date W N).year (julian.to_date W N).month) ∧
    (∀ N : ℤ, rata_die_min_opt W epoch s ≤ N →
      N ≤ rata_die_max_opt W epoch s →
      1 ≤ (gregorian.to_date_opt W epoch s N).month ∧
        (gregorian.to_date_opt W epoch s N).month ≤ 12 ∧
        1 ≤ (gregorian.to_date_opt W epoch s N).day ∧
        (gregorian.to_date_opt W epoch s N).day ≤
          last_day_of_month is_leap_year_gregorian
            (gregorian.to_date_opt W epoch s N).year
            (gregorian.to_date_opt W epoch s N).month) := by
  refine ⟨?_, ?_, ?_⟩
  · intro N h1 h2 hband
    rw [gregorian.to_date_w_eq W N hW h1 h2 hband]
    exact gregorian.to_date_math_valid N
  · intro N h1 h2 hband
    rw [julian.to_date_w_eq_julian W N hW h1 h2 hband]
    exact julian.to_date_math_valid_julian N
  · intro N h1 h2
    rw [gregorian.to_date_opt_eq W epoch s N hW he hs hK h1 h2]
    exact gregorian.to_date_math_valid (N + epoch)

theorem to_date_valid_witness :
    (1 ≤ (gregorian.to_date 32 0).month ∧
        (gregorian.to_date 32 0).month ≤ 12 ∧
        1 ≤ (gregorian.to_date 32 0).day ∧
        (gregorian.to_date 32 0).day ≤
          last_day_of_month is_leap_year_gregorian
            (gregorian.to_date 32 0).year (gregorian.to_date 32 0).month) ∧
      (1 ≤ (julian.to_date 32 0).month ∧
        (julian.to_date 32 0).month ≤ 12 ∧
        1 ≤ (julian.to_date 32 0).day ∧
        (julian.to_date 32 0).day ≤
          last_day_of_month is_leap_year_julian
            (julian.to_date 32 0).year (julian.to_date 32 0).month) ∧
      (1 ≤ (gregorian.to_date_opt 32 719468 82 0).month ∧
        (gregorian.to_date_opt 32 719468 82 0).month ≤ 12 ∧
        1 ≤ (gregorian.to_date_opt 32 719468 82 0).day ∧
        (gregorian.to_date_opt 32 719468 82 0).day ≤
          last_day_of_month is_leap_year_gregorian
            (gregorian.to_date_opt 32 719468 82 0).year
            (gregorian.to_date_opt 32 719468 82 0).month) :=
  ⟨(to_date_valid 32 719468 82 (Or.inl rfl) (by decide) (by decide)
        (by decide)).1 0 (by decide) (by decide) (by decide),
    (to_date_valid 32 719468 82 (Or.inl rfl) (by decide) (by decide)
        (by decide)).2.1 0 (by decide) (by decide) (by decide),
    (to_date_valid 32 719468 82 (Or.inl rfl) (by decide) (by decide)
        (by decide)).2.2 0 (by decide) (by decide)⟩

end EAF
